import Mathlib

/-!
Verification of the dev-clipboard tree store, file-watch bridge and
serializer against their natural-language specification.

The definitions below are a shallow embedding of the TypeScript /
JavaScript sources:

* the Zustand tree store (`fsStore`, the file defining `useFSStore`),
* the serializer `generateStructuredOutput` / `getFileLanguage`
  (`src/App.tsx`),
* the debounced file watcher (`fileWatcher.js` together with the
  `watch-file` IPC handler of `electron/main.js`).

JavaScript objects with optional fields become an inductive type with
`Option` fields; JavaScript arrays become `List`; string comparison with
`===` becomes decidable equality on `String`.
-/

namespace DevClipboard

/-- The `type` discriminator of an `FSNode`: the literal union
`'file' | 'folder'` from the source. -/
inductive NodeType : Type where
  | file : NodeType
  | folder : NodeType
deriving DecidableEq, Repr

/-- The `position` argument of `moveNodeToPosition`:
the literal union `'before' | 'after'`. -/
inductive Pos : Type where
  | before : Pos
  | after : Pos
deriving DecidableEq, Repr

/-- The `FSNode` record of the store:
`{ id, name, type, content?, filePath?, children?, isEditing?, isExpanded? }`.
Optional fields are `Option`s (`undefined` is `none`); in particular
`children: undefined` (`none`) and `children: []` (`some []`) are
distinguished, as they are in the JavaScript truthiness test
`if (node.children)` only via emptiness of the array, which is truthy. -/
inductive FSNode : Type where
  | mk : String → String → NodeType → Option String → Option String →
      Option (List FSNode) → Option Bool → Option Bool → FSNode

/-- Field `id` of an `FSNode`. -/
def FSNode.id : FSNode → String
  | .mk i _ _ _ _ _ _ _ => i

/-- Field `name` of an `FSNode`. -/
def FSNode.name : FSNode → String
  | .mk _ nm _ _ _ _ _ _ => nm

/-- Field `type` of an `FSNode`. -/
def FSNode.type : FSNode → NodeType
  | .mk _ _ ty _ _ _ _ _ => ty

/-- Field `content` of an `FSNode`. -/
def FSNode.content : FSNode → Option String
  | .mk _ _ _ ct _ _ _ _ => ct

/-- Field `filePath` of an `FSNode`. -/
def FSNode.filePath : FSNode → Option String
  | .mk _ _ _ _ fp _ _ _ => fp

/-- Field `children` of an `FSNode`. -/
def FSNode.children : FSNode → Option (List FSNode)
  | .mk _ _ _ _ _ ch _ _ => ch

/-- Field `isEditing` of an `FSNode`. -/
def FSNode.isEditing : FSNode → Option Bool
  | .mk _ _ _ _ _ _ ie _ => ie

/-- Field `isExpanded` of an `FSNode`. -/
def FSNode.isExpanded : FSNode → Option Bool
  | .mk _ _ _ _ _ _ _ ix => ix

/-- The spread `{ ...node, children: cs }`. -/
def FSNode.setChildren : FSNode → Option (List FSNode) → FSNode
  | .mk i nm ty ct fp _ ie ix, ch => .mk i nm ty ct fp ch ie ix

/-- The spread `{ ...node, content }`. -/
def FSNode.setContent : FSNode → Option String → FSNode
  | .mk i nm ty _ fp ch ie ix, ct => .mk i nm ty ct fp ch ie ix

/-- The spread `{ ...node, name, isEditing: false }` used by `updateNodeName`. -/
def FSNode.setNameDone : FSNode → String → FSNode
  | .mk i _ ty ct fp ch _ ix, nm => .mk i nm ty ct fp ch (some false) ix

/-- The spread `{ ...node, isEditing }`. -/
def FSNode.setEditing : FSNode → Bool → FSNode
  | .mk i nm ty ct fp ch _ ix, b => .mk i nm ty ct fp ch (some b) ix

/-- The spread `{ ...node, isExpanded }`. -/
def FSNode.setExpanded : FSNode → Bool → FSNode
  | .mk i nm ty ct fp ch ie _, b => .mk i nm ty ct fp ch ie (some b)

/-! ### Derived queries over trees

These are not store functions; they are the vocabulary used to state
properties: the multiset of ids of a subtree / forest, containment of an
id, occurrence of a node value, and occurrence of a folder with a given
children list. -/

mutual

/-- All ids in the subtree rooted at a node, in depth-first order. -/
def nodeIds : FSNode → List String
  | .mk nid _ _ _ _ (some cs) _ _ => nid :: allIdsL cs
  | .mk nid _ _ _ _ none _ _ => [nid]

/-- All ids in a forest, in depth-first order. -/
def allIdsL : List FSNode → List String
  | [] => []
  | n :: ns => nodeIds n ++ allIdsL ns

end

mutual

/-- Whether the subtree rooted at a node contains a node with id `i`. -/
def containsIdN (i : String) : FSNode → Bool
  | .mk nid _ _ _ _ (some cs) _ _ => nid = i || containsIdL i cs
  | .mk nid _ _ _ _ none _ _ => nid = i

/-- Whether a forest contains a node with id `i`, at any depth. -/
def containsIdL (i : String) : List FSNode → Bool
  | [] => false
  | n :: ns => containsIdN i n || containsIdL i ns

end

mutual

/-- `occursN m n`: the node value `m` occurs in the subtree rooted at `n`
(as `n` itself or nested at any depth). -/
def occursN (m : FSNode) : FSNode → Prop
  | .mk nid nm ty ct fp (some cs) ie ix =>
      m = .mk nid nm ty ct fp (some cs) ie ix ∨ occursL m cs
  | .mk nid nm ty ct fp none ie ix => m = .mk nid nm ty ct fp none ie ix

/-- `occursL m l`: the node value `m` occurs somewhere in the forest `l`. -/
def occursL (m : FSNode) : List FSNode → Prop
  | [] => False
  | n :: ns => occursN m n ∨ occursL m ns

end

mutual

/-- The `(id, type)` pairs of all nodes of a subtree, in depth-first order. -/
def idTypePairsN : FSNode → List (String × NodeType)
  | .mk nid _ ty _ _ (some cs) _ _ => (nid, ty) :: idTypePairsL cs
  | .mk nid _ ty _ _ none _ _ => [(nid, ty)]

/-- The `(id, type)` pairs of all nodes of a forest, in depth-first order. -/
def idTypePairsL : List FSNode → List (String × NodeType)
  | [] => []
  | n :: ns => idTypePairsN n ++ idTypePairsL ns

end

mutual

/-- `hasFolderChildrenN pid cs n`: somewhere in the subtree rooted at `n`
there is a folder node with id `pid` whose children list is exactly `cs`. -/
def hasFolderChildrenN (pid : String) (cs : List FSNode) : FSNode → Prop
  | .mk nid _ ty _ _ (some l) _ _ =>
      (nid = pid ∧ ty = .folder ∧ l = cs) ∨ hasFolderChildrenL pid cs l
  | .mk _ _ _ _ _ none _ _ => False

/-- `hasFolderChildrenL pid cs l`: somewhere in the forest `l` there is a
folder node with id `pid` whose children list is exactly `cs`. -/
def hasFolderChildrenL (pid : String) (cs : List FSNode) : List FSNode → Prop
  | [] => False
  | n :: ns => hasFolderChildrenN pid cs n ∨ hasFolderChildrenL pid cs ns

end

/-! ### The Tree Store mutation and query API

Each definition below is the shallow embedding of the function of the same
name in the store source (the Zustand `useFSStore` creator). The store's
`set`/`get` state plumbing becomes explicit passing of the current forest
`nodes : List FSNode`; an early `return` that leaves the state untouched
becomes returning the input forest. -/

/-- `addNodes`: `set(s => ({ nodes: [...s.nodes, ...newNodes] }))`. -/
def addNodes (nodes newNodes : List FSNode) : List FSNode :=
  nodes ++ newNodes

/-- `removeNode`: `set(s => ({ nodes: s.nodes.filter(n => n.id !== id) }))`.
Note this filters the root-level list only. -/
def removeNode (i : String) (nodes : List FSNode) : List FSNode :=
  nodes.filter (fun n => n.id != i)

/-- `createFolder`: appends `{ id, name: name || 'New Folder', type: 'folder',
children: [] }` at root level. The generated id is a parameter (the source
draws it from `Date.now()`/`Math.random()`). -/
def createFolder (newId nm : String) (nodes : List FSNode) : List FSNode :=
  nodes ++ [.mk newId (if nm = "" then "New Folder" else nm) .folder none none (some []) none none]

mutual

/-- One node of `updateNodeName`'s `nodes.map(...)`: the matched node gets
`{ ...node, name, isEditing: false }` and is not recursed into; any other
node with children is rebuilt around the recursion. -/
def updateNodeNameN (i nm : String) : FSNode → FSNode
  | .mk nid n0 ty ct fp none ie ix =>
      if nid = i then .mk nid nm ty ct fp none (some false) ix
      else .mk nid n0 ty ct fp none ie ix
  | .mk nid n0 ty ct fp (some cs) ie ix =>
      if nid = i then .mk nid nm ty ct fp (some cs) (some false) ix
      else .mk nid n0 ty ct fp (some (updateNodeName i nm cs)) ie ix

/-- `updateNodeName`'s inner `updateNode` over a sibling list. -/
def updateNodeName (i nm : String) : List FSNode → List FSNode
  | [] => []
  | n :: ns => updateNodeNameN i nm n :: updateNodeName i nm ns

end

mutual

/-- One node of `setNodeEditing`'s `nodes.map(...)`. -/
def setNodeEditingN (i : String) (b : Bool) : FSNode → FSNode
  | .mk nid n0 ty ct fp none ie ix =>
      if nid = i then .mk nid n0 ty ct fp none (some b) ix
      else .mk nid n0 ty ct fp none ie ix
  | .mk nid n0 ty ct fp (some cs) ie ix =>
      if nid = i then .mk nid n0 ty ct fp (some cs) (some b) ix
      else .mk nid n0 ty ct fp (some (setNodeEditing i b cs)) ie ix

/-- `setNodeEditing`'s inner `updateNode` over a sibling list. -/
def setNodeEditing (i : String) (b : Bool) : List FSNode → List FSNode
  | [] => []
  | n :: ns => setNodeEditingN i b n :: setNodeEditing i b ns

end

mutual

/-- One node of `setNodeExpanded`'s `nodes.map(...)`. -/
def setNodeExpandedN (i : String) (b : Bool) : FSNode → FSNode
  | .mk nid n0 ty ct fp none ie ix =>
      if nid = i then .mk nid n0 ty ct fp none ie (some b)
      else .mk nid n0 ty ct fp none ie ix
  | .mk nid n0 ty ct fp (some cs) ie ix =>
      if nid = i then .mk nid n0 ty ct fp (some cs) ie (some b)
      else .mk nid n0 ty ct fp (some (setNodeExpanded i b cs)) ie ix

/-- `setNodeExpanded`'s inner `updateNode` over a sibling list. -/
def setNodeExpanded (i : String) (b : Bool) : List FSNode → List FSNode
  | [] => []
  | n :: ns => setNodeExpandedN i b n :: setNodeExpanded i b ns

end

mutual

/-- `findNodeById` restricted to one node of the loop: the node itself is
checked first (`if (node.id === id) return node`), then its children are
searched (`if (node.children) { const found = ...; if (found) ... }`). -/
def findInNode (i : String) : FSNode → Option FSNode
  | .mk nid nm ty ct fp none ie ix =>
      if nid = i then some (.mk nid nm ty ct fp none ie ix) else none
  | .mk nid nm ty ct fp (some cs) ie ix =>
      if nid = i then some (.mk nid nm ty ct fp (some cs) ie ix)
      else findNodeById i cs

/-- `findNodeById`: depth-first search returning the first node whose id
matches; a node is checked before its children, children before later
siblings, exactly as the source's `for`-loop does. -/
def findNodeById (i : String) : List FSNode → Option FSNode
  | [] => none
  | n :: ns =>
      match findInNode i n with
      | some m => some m
      | none => findNodeById i ns

end

mutual

/-- The `node.children = removeNodeFromTree(id, node.children)` rebuilding
step applied to one kept node. -/
def removeChildren (i : String) : FSNode → FSNode
  | .mk nid nm ty ct fp none ie ix => .mk nid nm ty ct fp none ie ix
  | .mk nid nm ty ct fp (some cs) ie ix =>
      .mk nid nm ty ct fp (some (removeNodeFromTree i cs)) ie ix

/-- `removeNodeFromTree`: filters out every node whose id is `i` (dropping
its entire subtree) and recurses into the children of every kept node. -/
def removeNodeFromTree (i : String) : List FSNode → List FSNode
  | [] => []
  | n :: ns =>
      if n.id = i then removeNodeFromTree i ns
      else removeChildren i n :: removeNodeFromTree i ns

end

/-- `deleteNode`: `set(s => ({ nodes: get().removeNodeFromTree(id, s.nodes) }))`. -/
def deleteNode (i : String) (nodes : List FSNode) : List FSNode :=
  removeNodeFromTree i nodes

/-- `deleteNodes`: folds `removeNodeFromTree` over the id list. -/
def deleteNodes (ids : List String) (nodes : List FSNode) : List FSNode :=
  ids.foldl (fun acc i => removeNodeFromTree i acc) nodes

mutual

/-- One node of `addNodeToFolder`'s `nodes.map(...)`: a folder whose id is
the target gets the new node appended to `[...(n.children || []), node]`;
otherwise a node with children is rebuilt around the recursion. -/
def addNodeToFolderN (w : FSNode) (fid : String) : FSNode → FSNode
  | .mk nid nm ty ct fp ch ie ix =>
      if nid = fid ∧ ty = .folder then
        .mk nid nm ty ct fp (some (ch.getD [] ++ [w])) ie ix
      else match ch with
        | some cs => .mk nid nm ty ct fp (some (addNodeToFolderGo w fid cs)) ie ix
        | none => .mk nid nm ty ct fp none ie ix

/-- `addNodeToFolder`'s recursion for a non-null folder id. -/
def addNodeToFolderGo (w : FSNode) (fid : String) : List FSNode → List FSNode
  | [] => []
  | n :: ns => addNodeToFolderN w fid n :: addNodeToFolderGo w fid ns

end

/-- `addNodeToFolder(node, folderId, nodes)`: appends at root level when
`folderId` is null, otherwise maps the tree appending `node` to the
children of every folder whose id is `folderId`. -/
def addNodeToFolder (w : FSNode) (folderId : Option String) (nodes : List FSNode) : List FSNode :=
  match folderId with
  | none => nodes ++ [w]
  | some fid => addNodeToFolderGo w fid nodes

/-- `addNodesToFolder`: folds `addNodeToFolder` over the new nodes. -/
def addNodesToFolder (newNodes : List FSNode) (folderId : Option String)
    (nodes : List FSNode) : List FSNode :=
  newNodes.foldl (fun acc n => addNodeToFolder n folderId acc) nodes

/-- `moveNodeToFolder`: looks the node up, returns unchanged state when it
is absent, otherwise removes it everywhere and hands it to
`addNodeToFolder`. -/
def moveNodeToFolder (nid : String) (targetFolderId : Option String)
    (nodes : List FSNode) : List FSNode :=
  match findNodeById nid nodes with
  | none => nodes
  | some w => addNodeToFolder w targetFolderId (removeNodeFromTree nid nodes)

mutual

/-- The `if (node.children)` inner search of `findParentNode`: search the
children of one node, with that node as the parent accumulator. -/
def findParentChildren (tid : String) : FSNode → Option FSNode
  | .mk _ _ _ _ _ none _ _ => none
  | .mk nid nm ty ct fp (some cs) ie ix =>
      findParentNode tid cs (some (.mk nid nm ty ct fp (some cs) ie ix))

/-- `findParentNode(targetNodeId, nodes, parent = null)`: returns the
`parent` accumulator when the target id is found at the current level;
`null` (here `none`) therefore means both "target is at root level" and
"target not found". -/
def findParentNode (tid : String) : List FSNode → Option FSNode → Option FSNode
  | [], _ => none
  | n :: ns, parent =>
      if n.id = tid then parent
      else match findParentChildren tid n with
        | some p => some p
        | none => findParentNode tid ns parent

end

/-- The `findIndex` + `splice` step of `insertNodeAtPosition`, for the
level that contains the target: insert `w` immediately before or after
the first node whose id is `tid`. -/
def insertHere (w : FSNode) (tid : String) (pos : Pos) : List FSNode → List FSNode
  | [] => []
  | n :: ns =>
      if n.id = tid then
        match pos with
        | .before => w :: n :: ns
        | .after => n :: w :: ns
      else n :: insertHere w tid pos ns

mutual

/-- One node of the `targetIndex === -1` branch (`nodes.map(...)`): a node
with children is rebuilt around the recursion, which re-runs the
`findIndex` test one level down. -/
def insertDeepN (w : FSNode) (tid : String) (pos : Pos) : FSNode → FSNode
  | .mk nid nm ty ct fp (some cs) ie ix =>
      .mk nid nm ty ct fp
        (some (if cs.any (fun n => n.id == tid) then insertHere w tid pos cs
               else insertDeep w tid pos cs)) ie ix
  | .mk nid nm ty ct fp none ie ix => .mk nid nm ty ct fp none ie ix

/-- The `targetIndex === -1` branch of `insertNodeAtPosition` over a
sibling list. -/
def insertDeep (w : FSNode) (tid : String) (pos : Pos) : List FSNode → List FSNode
  | [] => []
  | n :: ns => insertDeepN w tid pos n :: insertDeep w tid pos ns

end

/-- `insertNodeAtPosition(node, targetNodeId, position, nodes)`. -/
def insertNodeAtPosition (w : FSNode) (tid : String) (pos : Pos)
    (nodes : List FSNode) : List FSNode :=
  if nodes.any (fun n => n.id == tid) then insertHere w tid pos nodes
  else insertDeep w tid pos nodes

mutual

/-- One node of the `updateParent` closure's `nodes.map(...)` inside
`moveNodeToPosition`: the node whose id is the (previously found) parent's
id and which has children gets its children replaced by
`insertNodeAtPosition(...)`; other nodes with children are rebuilt around
the recursion. -/
def updateParentN (pid : String) (w : FSNode) (tid : String) (pos : Pos) : FSNode → FSNode
  | .mk nid nm ty ct fp (some cs) ie ix =>
      if nid = pid then
        .mk nid nm ty ct fp (some (insertNodeAtPosition w tid pos cs)) ie ix
      else
        .mk nid nm ty ct fp (some (updateParent pid w tid pos cs)) ie ix
  | .mk nid nm ty ct fp none ie ix => .mk nid nm ty ct fp none ie ix

/-- The `updateParent` closure over a sibling list. -/
def updateParent (pid : String) (w : FSNode) (tid : String) (pos : Pos) :
    List FSNode → List FSNode
  | [] => []
  | n :: ns => updateParentN pid w tid pos n :: updateParent pid w tid pos ns

end

/-- `moveNodeToPosition`: looks the node up (unchanged state when absent),
removes it everywhere, finds the target's parent in the updated forest and
inserts next to the target — under the parent when one was found, at root
level otherwise. -/
def moveNodeToPosition (nid tid : String) (pos : Pos) (nodes : List FSNode) : List FSNode :=
  match findNodeById nid nodes with
  | none => nodes
  | some w =>
      let updated := removeNodeFromTree nid nodes
      match findParentNode tid updated none with
      | some p => updateParent p.id w tid pos updated
      | none => insertNodeAtPosition w tid pos updated

/-- The path normalization of `updateFileContent`:
`path.replace(/\\/g, '/')`. -/
def normalizeSlashes (s : String) : String :=
  String.mk (s.data.map (fun ch => if ch = '\\' then '/' else ch))

/-- The match test of `updateFileContent`'s inner `updateNode`:
`normalizedNodePath === normalizedFilePath && node.type === 'file'`,
where `np` is the already-normalized argument path. -/
def matchesPath (np : String) (n : FSNode) : Prop :=
  n.filePath.map normalizeSlashes = some np ∧ n.type = .file

instance (np : String) (n : FSNode) : Decidable (matchesPath np n) := by
  unfold matchesPath; infer_instance

mutual

/-- One node of `updateFileContent`'s `nodes.map(...)`, with the argument
path already normalized: a matching file node gets `{ ...node, content }`
and is not recursed into; any other node with children is rebuilt around
the recursion. -/
def updateFileContentN (np c : String) : FSNode → FSNode
  | .mk nid nm ty ct fp none ie ix =>
      if matchesPath np (.mk nid nm ty ct fp none ie ix) then
        .mk nid nm ty (some c) fp none ie ix
      else .mk nid nm ty ct fp none ie ix
  | .mk nid nm ty ct fp (some cs) ie ix =>
      if matchesPath np (.mk nid nm ty ct fp (some cs) ie ix) then
        .mk nid nm ty (some c) fp (some cs) ie ix
      else .mk nid nm ty ct fp (some (updateFileContentGo np c cs)) ie ix

/-- `updateFileContent`'s inner `updateNode` over a sibling list. -/
def updateFileContentGo (np c : String) : List FSNode → List FSNode
  | [] => []
  | n :: ns => updateFileContentN np c n :: updateFileContentGo np c ns

end

/-- `updateFileContent(filePath, content)`: normalizes the argument path
and runs `updateNode` over the whole forest. -/
def updateFileContent (p c : String) (nodes : List FSNode) : List FSNode :=
  updateFileContentGo (normalizeSlashes p) c nodes

/-! ### Serializer (`App.tsx`: `getFileLanguage`, `generateStructuredOutput`) -/

/-- The characters after the last `'.'` of a file name
(`fileName.lastIndexOf('.')` and `substring(lastDot + 1)`); `none` when the
name has no dot. -/
def lastDotExt : List Char → Option (List Char)
  | [] => none
  | c :: rest =>
      match lastDotExt rest with
      | some e => some e
      | none => if c = '.' then some rest else none

/-- The `languageMap` literal of `getFileLanguage`. -/
def languageMap : String → Option String
  | "js" => some "javascript"
  | "jsx" => some "react"
  | "ts" => some "typescript"
  | "tsx" => some "react"
  | "html" => some "html"
  | "css" => some "css"
  | "json" => some "json"
  | "c" => some "c"
  | "cpp" => some "cpp"
  | "cc" => some "cpp"
  | "cxx" => some "cpp"
  | "h" => some "c"
  | "hpp" => some "c"
  | "py" => some "python"
  | "java" => some "java"
  | "go" => some "go"
  | "rs" => some "rust"
  | "sh" => some "shell"
  | "bash" => some "shell"
  | "zsh" => some "shell"
  | "md" => some "markdown"
  | "txt" => some "text"
  | "xml" => some "xml"
  | "yaml" => some "yaml"
  | "yml" => some "yaml"
  | _ => none

/-- `getFileLanguage(fileName)`: `'text'` when the name has no dot,
otherwise the lowercased extension looked up in `languageMap`, falling
back to the extension itself. -/
def getFileLanguage (fileName : String) : String :=
  match lastDotExt fileName.toList with
  | none => "text"
  | some ext =>
      let e := String.mk (ext.map Char.toLower)
      (languageMap e).getD e

/-- One collected file of `generateStructuredOutput`:
`{ path, name, content }` where `content` is `node.content || ''`. -/
def FileEntry : Type := List String × String × String

mutual

/-- `traverseStructure` applied to one node: it returns the folder-structure
lines and the file entries this node contributes, in push order. A folder
always contributes its display line (root folders bare, nested ones
prefixed `indent + '|-- '`) and only recurses when its children array is
present and non-empty; a file contributes one file entry and no
folder-structure line. -/
def travN : FSNode → List String → String → List String × List FileEntry
  | .mk _ nm .folder _ _ ch _ _, path, indent =>
      let displayName := if path = [] then nm else indent ++ "|-- " ++ nm
      (match ch with
       | some [] => ([displayName], [])
       | some (c0 :: cs) =>
            let newIndent := indent ++ (if path = [] then "" else "  ")
            let r := travL (c0 :: cs) (path ++ [nm]) newIndent
            (displayName :: r.1, r.2)
       | none => ([displayName], []))
  | .mk _ nm .file ct _ _ _ _, path, _ => ([], [(path, nm, ct.getD "")])

/-- `traverseStructure` folded over a sibling list (the `forEach`). -/
def travL : List FSNode → List String → String → List String × List FileEntry
  | [], _, _ => ([], [])
  | n :: ns, path, indent =>
      let a := travN n path indent
      let b := travL ns path indent
      (a.1 ++ b.1, a.2 ++ b.2)

end

/-- `'='.repeat(80)`. -/
def eqRule : String := String.mk (List.replicate 80 '=')

/-- `'-'.repeat(80)`. -/
def dashRule : String := String.mk (List.replicate 80 '-')

/-- The `files.forEach` of `generateStructuredOutput`: per file a header
`name (language)`, a dash rule, the literal content and a newline, with a
blank-line/equals-rule separator between consecutive files. -/
def fileBlocks : List FileEntry → String
  | [] => ""
  | (_, nm, c) :: rest =>
      let block := nm ++ " (" ++ getFileLanguage nm ++ ")\n" ++ dashRule ++ "\n" ++ c ++ "\n"
      match rest with
      | [] => block
      | _ :: _ => block ++ "\n" ++ eqRule ++ "\n\n" ++ fileBlocks rest

/-- `generateStructuredOutput(nodes)`: an optional `FOLDER STRUCTURE:`
section built from the folder lines, then an optional `FILES:` section
built from the file entries. -/
def generateStructuredOutput (nodes : List FSNode) : String :=
  let r := travL nodes [] ""
  (if r.1.isEmpty then "" else "FOLDER STRUCTURE:\n" ++ String.intercalate "\n" r.1 ++ "\n\n")
    ++ (if r.2.isEmpty then "" else "FILES:\n" ++ eqRule ++ "\n\n" ++ fileBlocks r.2)

/-! ### File watch bridge (`fileWatcher.js` + the `watch-file` handler)

The debounce logic of `watchFile` is embedded as a discrete-time event
simulation. A raw `'change'` notification at time `t` runs
`clearTimeout(debounceTimer); debounceTimer = setTimeout(cb, 100)`, i.e.
it replaces the pending deadline by `t + 100`; a pending timer whose
deadline arrives while no earlier notification has replaced it fires the
registered callback. `Watch.run` processes the time-ordered notification
list for one watched path, with `pending` the deadline of the timer
currently scheduled, and returns the times at which the callback fires.
The `watch-file` handler of `electron/main.js` then reads the file and
delivers its content, modelled by reading a time-indexed content function
at the fire time. -/

namespace Watch

/-- The debounce delay of `watchFile`: `setTimeout(..., 100)`. -/
def debounceMs : Nat := 100

/-- Event-loop simulation of the per-path debounce timer; see the section
comment. `pending` is the deadline of the currently scheduled timer. -/
def run (pending : Option Nat) : List Nat → List Nat
  | [] =>
      match pending with
      | none => []
      | some d => [d]
  | t :: ts =>
      match pending with
      | none => run (some (t + debounceMs)) ts
      | some d =>
          if d ≤ t then d :: run (some (t + debounceMs)) ts
          else run (some (t + debounceMs)) ts

/-- The callback fire times produced by a burst of raw change
notifications (no timer is pending before the first one). -/
def fireTimes (events : List Nat) : List Nat :=
  run none events

/-- The content updates delivered to the tree: at each fire time the
`watch-file` handler reads the file (`read` maps a time to the on-disk
content at that time) and sends `{ filePath, content }`. -/
def deliveries (events : List Nat) (read : Nat → String) : List (Nat × String) :=
  (fireTimes events).map (fun d => (d, read d))

end Watch

/-! ### Definitions written from the specification's words

These two definitions do not embed source code; they state, in executable
form, what a claim asserts, so that it can be compared with the source
embedding above. -/

/-- Reference-level result of `updateFileContent`'s `set`. The inner
`updateNode` is `nodes.map(...)`, and `Array.prototype.map` always returns
a newly allocated array, so the array handed to the store carries a fresh
reference: with `ref` the reference of the input array and `fresh` a
reference not in use (`fresh ≠ ref`), the store receives `(fresh, value)`.
The claim that "no new tree value is produced" asserts the first component
equals `ref`. -/
def updateFileContentRef (p c : String) (_ref : Nat) (nodes : List FSNode)
    (fresh : Nat) : Nat × List FSNode :=
  (fresh, updateFileContent p c nodes)

mutual

/-- Modelled from the claim's words, for comparison with
`updateFileContentGo`: replace the content of every file node whose
normalized path matches, recursing into every node's children
unconditionally. -/
def updateAllMatchingN (np c : String) : FSNode → FSNode
  | .mk nid nm ty ct fp ch ie ix =>
      let ct' := if matchesPath np (.mk nid nm ty ct fp ch ie ix) then some c else ct
      match ch with
      | some cs => .mk nid nm ty ct' fp (some (updateAllMatchingL np c cs)) ie ix
      | none => .mk nid nm ty ct' fp none ie ix

/-- `updateAllMatchingN` over a forest. -/
def updateAllMatchingL (np c : String) : List FSNode → List FSNode
  | [] => []
  | n :: ns => updateAllMatchingN np c n :: updateAllMatchingL np c ns

end

mutual

/-- Spec invariant §3 restricted to what `updateFileContent` is sensitive
to: file nodes carry no `children` array. -/
def fileNodesClosedN : FSNode → Bool
  | .mk _ _ .file _ _ ch _ _ => ch.isNone
  | .mk _ _ .folder _ _ (some cs) _ _ => fileNodesClosedL cs
  | .mk _ _ .folder _ _ none _ _ => true

/-- `fileNodesClosedN` over a forest. -/
def fileNodesClosedL : List FSNode → Bool
  | [] => true
  | n :: ns => fileNodesClosedN n && fileNodesClosedL ns

end

mutual

/-- Whether the subtree rooted at a node contains a file node whose
normalized `filePath` is `np` (the match test of `updateFileContent`). -/
def hasMatchingFileN (np : String) : FSNode → Bool
  | .mk nid nm ty ct fp (some cs) ie ix =>
      decide (matchesPath np (.mk nid nm ty ct fp (some cs) ie ix)) || hasMatchingFileL np cs
  | .mk nid nm ty ct fp none ie ix =>
      decide (matchesPath np (.mk nid nm ty ct fp none ie ix))

/-- `hasMatchingFileN` over a forest. -/
def hasMatchingFileL (np : String) : List FSNode → Bool
  | [] => false
  | n :: ns => hasMatchingFileN np n || hasMatchingFileL np ns

end

/-! ### Infrastructure: simultaneous induction over nodes and forests -/

mutual

/-- Simultaneous induction: to prove a node motive and a forest motive it
suffices to handle nil, cons, childless nodes and nodes with children. -/
theorem nodeInd {motive : FSNode → Prop} {L : List FSNode → Prop}
    (h0 : L [])
    (h1 : ∀ n ns, motive n → L ns → L (n :: ns))
    (h2 : ∀ i nm ty ct fp ie ix, motive (.mk i nm ty ct fp none ie ix))
    (h3 : ∀ i nm ty ct fp cs ie ix, L cs → motive (.mk i nm ty ct fp (some cs) ie ix)) :
    ∀ n : FSNode, motive n
  | .mk i nm ty ct fp none ie ix => h2 i nm ty ct fp ie ix
  | .mk i nm ty ct fp (some cs) ie ix =>
      h3 i nm ty ct fp cs ie ix (forestInd h0 h1 h2 h3 cs)

/-- Forest half of `nodeInd`. -/
theorem forestInd {motive : FSNode → Prop} {L : List FSNode → Prop}
    (h0 : L [])
    (h1 : ∀ n ns, motive n → L ns → L (n :: ns))
    (h2 : ∀ i nm ty ct fp ie ix, motive (.mk i nm ty ct fp none ie ix))
    (h3 : ∀ i nm ty ct fp cs ie ix, L cs → motive (.mk i nm ty ct fp (some cs) ie ix)) :
    ∀ l : List FSNode, L l
  | [] => h0
  | n :: ns => h1 n ns (nodeInd h0 h1 h2 h3 n) (forestInd h0 h1 h2 h3 ns)

end

/-! ### Basic lemmas about ids, containment and occurrence -/

theorem mem_allIdsL_iff (i : String) :
    ∀ l : List FSNode, i ∈ allIdsL l ↔ containsIdL i l = true := by
  refine forestInd ?_ ?_ ?_ ?_
    (motive := fun n => i ∈ nodeIds n ↔ containsIdN i n = true)
  · simp [allIdsL, containsIdL]
  · intro n ns ihn ihl
    simp [allIdsL, containsIdL, ihn, ihl]
  · intro j nm ty ct fp ie ix
    simp only [nodeIds, containsIdN, List.mem_singleton, decide_eq_true_eq]
    exact eq_comm
  · intro j nm ty ct fp cs ie ix ih
    simp only [nodeIds, containsIdN, List.mem_cons, Bool.or_eq_true, decide_eq_true_eq, ih]
    exact or_congr eq_comm Iff.rfl

theorem mem_nodeIds_iff (i : String) :
    ∀ n : FSNode, i ∈ nodeIds n ↔ containsIdN i n = true := by
  intro n
  have := mem_allIdsL_iff i [n]
  simpa [allIdsL, containsIdL] using this

theorem id_mem_nodeIds : ∀ n : FSNode, n.id ∈ nodeIds n := by
  intro n
  cases n with
  | mk i nm ty ct fp ch ie ix =>
    cases ch <;> simp [nodeIds, FSNode.id]

/-- Induction over forests where the step for a cons may use the motive on
the children list of the head node. -/
theorem forestIndStrong {L : List FSNode → Prop} (h0 : L [])
    (h1 : ∀ n ns, (∀ cs, n.children = some cs → L cs) → L ns → L (n :: ns)) :
    ∀ l : List FSNode, L l := by
  refine forestInd h0 ?_ ?_ ?_ (motive := fun n => ∀ cs, n.children = some cs → L cs)
  · exact h1
  · intro i nm ty ct fp ie ix cs hcs
    simp [FSNode.children] at hcs
  · intro i nm ty ct fp cs ie ix ih cs' hcs'
    simp only [FSNode.children, Option.some.injEq] at hcs'
    exact hcs' ▸ ih

theorem nodeIds_mk_some (i nm : String) (ty : NodeType) (ct fp : Option String)
    (cs : List FSNode) (ie ix : Option Bool) :
    nodeIds (.mk i nm ty ct fp (some cs) ie ix) = i :: allIdsL cs := rfl

theorem nodeIds_mk_none (i nm : String) (ty : NodeType) (ct fp : Option String)
    (ie ix : Option Bool) :
    nodeIds (.mk i nm ty ct fp none ie ix) = [i] := rfl

/-! ### Lemmas about `removeNodeFromTree` -/

theorem removeNodeFromTree_noop (i : String) :
    ∀ l : List FSNode, containsIdL i l = false → removeNodeFromTree i l = l := by
  refine forestInd ?_ ?_ ?_ ?_
    (motive := fun n => containsIdN i n = false → removeChildren i n = n)
  · intro _; rfl
  · intro n ns ihn ihl h
    simp only [containsIdL, Bool.or_eq_false_iff] at h
    have hid : n.id ≠ i := by
      cases n with
      | mk a b c d e f g hh =>
        cases f with
        | none => simpa [containsIdN, FSNode.id] using h.1
        | some cs =>
          have h1 := h.1
          simp only [containsIdN, Bool.or_eq_false_iff, decide_eq_false_iff_not] at h1
          simpa [FSNode.id] using h1.1
    simp only [removeNodeFromTree, if_neg hid]
    rw [ihn h.1, ihl h.2]
  · intro j nm ty ct fp ie ix _; rfl
  · intro j nm ty ct fp cs ie ix ih h
    simp only [containsIdN, Bool.or_eq_false_iff] at h
    simp only [removeChildren]
    rw [ih h.2]

theorem containsIdL_removeNodeFromTree_self (i : String) :
    ∀ l : List FSNode, containsIdL i (removeNodeFromTree i l) = false := by
  refine forestInd ?_ ?_ ?_ ?_
    (motive := fun n => n.id ≠ i → containsIdN i (removeChildren i n) = false)
  · rfl
  · intro n ns ihn ihl
    by_cases hid : n.id = i
    · simpa [removeNodeFromTree, hid] using ihl
    · simp [removeNodeFromTree, hid, containsIdL, ihn hid, ihl]
  · intro j nm ty ct fp ie ix hj
    simp only [FSNode.id] at hj
    simp [removeChildren, containsIdN, hj]
  · intro j nm ty ct fp cs ie ix ih hj
    simp only [FSNode.id] at hj
    simp [removeChildren, containsIdN, hj, ih]

theorem allIdsL_removeNodeFromTree_sublist (i : String) :
    ∀ l : List FSNode, (allIdsL (removeNodeFromTree i l)).Sublist (allIdsL l) := by
  refine forestInd ?_ ?_ ?_ ?_
    (motive := fun n => (nodeIds (removeChildren i n)).Sublist (nodeIds n))
  · exact List.Sublist.refl _
  · intro n ns ihn ihl
    by_cases hid : n.id = i
    · simp only [removeNodeFromTree, if_pos hid, allIdsL]
      exact ihl.trans (List.sublist_append_right _ _)
    · simp only [removeNodeFromTree, if_neg hid, allIdsL]
      exact ihn.append ihl
  · intro j nm ty ct fp ie ix
    simp [removeChildren]
  · intro j nm ty ct fp cs ie ix ih
    simpa [removeChildren, nodeIds_mk_some] using ih.cons₂ j

theorem containsIdL_of_remove (i j : String) (l : List FSNode)
    (h : containsIdL j (removeNodeFromTree i l) = true) : containsIdL j l = true := by
  rw [← mem_allIdsL_iff] at h ⊢
  exact (allIdsL_removeNodeFromTree_sublist i l).mem h

/-! ### Lemmas about `findNodeById` -/

theorem findNodeById_cons (i : String) (n : FSNode) (ns : List FSNode) :
    findNodeById i (n :: ns)
      = match findInNode i n with
        | some m => some m
        | none => findNodeById i ns := rfl

theorem findInNode_self (i : String) (n : FSNode) (h : n.id = i) :
    findInNode i n = some n := by
  cases n with
  | mk nid nm ty ct fp ch ie ix =>
    rw [FSNode.id] at h
    cases ch with
    | none => rw [findInNode, if_pos h]
    | some cs => rw [findInNode, if_pos h]

theorem findInNode_id (i : String) :
    ∀ n : FSNode, ∀ m, findInNode i n = some m → m.id = i := by
  refine nodeInd ?_ ?_ ?_ ?_
    (L := fun l => ∀ m, findNodeById i l = some m → m.id = i)
  · intro m h; exact Option.noConfusion h
  · intro n ns ihn ihl m h
    rw [findNodeById_cons] at h
    cases hf : findInNode i n with
    | some m' =>
      rw [hf] at h
      exact (Option.some.injEq .. ▸ h) ▸ ihn m' hf
    | none =>
      rw [hf] at h
      exact ihl m h
  · intro nid nm ty ct fp ie ix m h
    rw [findInNode] at h
    by_cases hid : nid = i
    · rw [if_pos hid] at h
      cases h
      rw [FSNode.id]; exact hid
    · rw [if_neg hid] at h
      exact Option.noConfusion h
  · intro nid nm ty ct fp cs ie ix ih m h
    rw [findInNode] at h
    by_cases hid : nid = i
    · rw [if_pos hid] at h
      cases h
      rw [FSNode.id]; exact hid
    · rw [if_neg hid] at h
      exact ih m h

theorem findNodeById_id (i : String) :
    ∀ l : List FSNode, ∀ n, findNodeById i l = some n → n.id = i := by
  intro l
  induction l with
  | nil => intro n h; exact Option.noConfusion h
  | cons n ns ih =>
    intro m h
    rw [findNodeById_cons] at h
    cases hf : findInNode i n with
    | some m' =>
      rw [hf] at h
      exact (Option.some.injEq .. ▸ h) ▸ findInNode_id i n m' hf
    | none =>
      rw [hf] at h
      exact ih m h

theorem findInNode_none_iff (i : String) :
    ∀ n : FSNode, findInNode i n = none ↔ containsIdN i n = false := by
  refine nodeInd ?_ ?_ ?_ ?_
    (L := fun l => findNodeById i l = none ↔ containsIdL i l = false)
  · simp [findNodeById, containsIdL]
  · intro n ns ihn ihl
    rw [findNodeById_cons, containsIdL]
    cases hf : findInNode i n with
    | some m =>
      have : containsIdN i n = true := by
        cases hcn : containsIdN i n
        · rw [← ihn, hf] at hcn; cases hcn
        · rfl
      simp [this]
    | none =>
      have : containsIdN i n = false := (ihn).mp hf
      simp [this, ihl]
  · intro nid nm ty ct fp ie ix
    rw [findInNode, containsIdN]
    by_cases hid : nid = i <;> simp [hid]
  · intro nid nm ty ct fp cs ie ix ih
    rw [findInNode, containsIdN]
    by_cases hid : nid = i <;> simp [hid, ih]

theorem findNodeById_none_iff (i : String) :
    ∀ l : List FSNode, findNodeById i l = none ↔ containsIdL i l = false := by
  intro l
  induction l with
  | nil => simp [findNodeById, containsIdL]
  | cons n ns ih =>
    rw [findNodeById_cons, containsIdL]
    cases hf : findInNode i n with
    | some m =>
      have : containsIdN i n = true := by
        cases hcn : containsIdN i n
        · rw [← findInNode_none_iff, hf] at hcn; cases hcn
        · rfl
      simp [this]
    | none =>
      have : containsIdN i n = false := (findInNode_none_iff i n).mp hf
      simp [this, ih]

theorem findNodeById_contains (i : String) (l : List FSNode) (n : FSNode)
    (h : findNodeById i l = some n) : containsIdL i l = true := by
  by_contra hc
  have : containsIdL i l = false := by
    cases hcl : containsIdL i l
    · rfl
    · exact absurd hcl hc
  rw [← findNodeById_none_iff] at this
  rw [this] at h
  cases h

theorem removeNodeFromTree_cons_pos (i : String) (n : FSNode) (ns : List FSNode)
    (h : n.id = i) :
    removeNodeFromTree i (n :: ns) = removeNodeFromTree i ns := by
  rw [removeNodeFromTree.eq_def]
  simp [h]

theorem removeNodeFromTree_cons_neg (i : String) (n : FSNode) (ns : List FSNode)
    (h : ¬ n.id = i) :
    removeNodeFromTree i (n :: ns) = removeChildren i n :: removeNodeFromTree i ns := by
  rw [removeNodeFromTree.eq_def]
  simp [h]

theorem removeChildren_mk_some (i nid nm : String) (ty : NodeType) (ct fp : Option String)
    (cs : List FSNode) (ie ix : Option Bool) :
    removeChildren i (.mk nid nm ty ct fp (some cs) ie ix)
      = .mk nid nm ty ct fp (some (removeNodeFromTree i cs)) ie ix := by
  rw [removeChildren.eq_def]

theorem removeChildren_mk_none (i nid nm : String) (ty : NodeType) (ct fp : Option String)
    (ie ix : Option Bool) :
    removeChildren i (.mk nid nm ty ct fp none ie ix) = .mk nid nm ty ct fp none ie ix := by
  rw [removeChildren.eq_def]

theorem removeChildren_noop (i : String) (n : FSNode) (h : containsIdN i n = false) :
    removeChildren i n = n := by
  cases n with
  | mk nid nm ty ct fp ch ie ix =>
    cases ch with
    | none => exact removeChildren_mk_none ..
    | some cs =>
      rw [removeChildren_mk_some]
      have : containsIdL i cs = false := by
        simp only [containsIdN, Bool.or_eq_false_iff] at h
        exact h.2
      rw [removeNodeFromTree_noop i cs this]

/-! ### Occurrence lemmas -/

theorem occursL_nodeIds_sublist (m : FSNode) :
    ∀ l : List FSNode, occursL m l → (nodeIds m).Sublist (allIdsL l) := by
  refine forestInd ?_ ?_ ?_ ?_
    (motive := fun n => occursN m n → (nodeIds m).Sublist (nodeIds n))
  · intro h; cases h
  · intro n ns ihn ihl h
    cases h with
    | inl h => exact (ihn h).trans (List.sublist_append_left _ _)
    | inr h => exact (ihl h).trans (List.sublist_append_right _ _)
  · intro j nm ty ct fp ie ix h
    rw [occursN.eq_def] at h
    subst h
    exact List.Sublist.refl _
  · intro j nm ty ct fp cs ie ix ih h
    rw [occursN.eq_def] at h
    cases h with
    | inl h => subst h; exact List.Sublist.refl _
    | inr h =>
      rw [nodeIds_mk_some]
      exact (ih h).trans (List.sublist_cons_of_sublist j (List.Sublist.refl _))

theorem occursL_id_mem (m : FSNode) (l : List FSNode) (h : occursL m l) :
    m.id ∈ allIdsL l :=
  (occursL_nodeIds_sublist m l h).mem (id_mem_nodeIds m)

theorem occursN_id_mem (m n : FSNode) (h : occursN m n) : m.id ∈ nodeIds n := by
  have hs := occursL_nodeIds_sublist m [n] (Or.inl h)
  rw [allIdsL, allIdsL, List.append_nil] at hs
  exact hs.mem (id_mem_nodeIds m)

theorem findInNode_occurs (i : String) :
    ∀ n : FSNode, ∀ m, findInNode i n = some m → occursN m n := by
  refine nodeInd ?_ ?_ ?_ ?_
    (L := fun l => ∀ m, findNodeById i l = some m → occursL m l)
  · intro m h; exact Option.noConfusion h
  · intro n ns ihn ihl m h
    rw [findNodeById_cons] at h
    cases hf : findInNode i n with
    | some m' =>
      rw [hf] at h
      cases h
      exact Or.inl (ihn m hf)
    | none =>
      rw [hf] at h
      exact Or.inr (ihl m h)
  · intro nid nm ty ct fp ie ix m h
    rw [findInNode] at h
    by_cases hid : nid = i
    · rw [if_pos hid] at h
      cases h
      rw [occursN.eq_def]
    · rw [if_neg hid] at h
      exact Option.noConfusion h
  · intro nid nm ty ct fp cs ie ix ih m h
    rw [findInNode] at h
    by_cases hid : nid = i
    · rw [if_pos hid] at h
      cases h
      rw [occursN.eq_def]
      exact Or.inl rfl
    · rw [if_neg hid] at h
      rw [occursN.eq_def]
      exact Or.inr (ih m h)

theorem findNodeById_occurs (i : String) :
    ∀ l : List FSNode, ∀ n, findNodeById i l = some n → occursL n l := by
  intro l
  induction l with
  | nil => intro n h; exact Option.noConfusion h
  | cons n ns ih =>
    intro m h
    rw [findNodeById_cons] at h
    cases hf : findInNode i n with
    | some m' =>
      rw [hf] at h
      cases h
      exact Or.inl (findInNode_occurs i n m hf)
    | none =>
      rw [hf] at h
      exact Or.inr (ih m h)

theorem occursL_unique :
    ∀ l : List FSNode, (allIdsL l).Nodup →
      ∀ a b : FSNode, occursL a l → occursL b l → a.id = b.id → a = b := by
  refine forestInd ?_ ?_ ?_ ?_
    (motive := fun n => (nodeIds n).Nodup →
      ∀ a b : FSNode, occursN a n → occursN b n → a.id = b.id → a = b)
  · intro _ a b ha; cases ha
  · intro n ns ihn ihl hnd a b ha hb hab
    rw [allIdsL, List.nodup_append] at hnd
    cases ha with
    | inl ha =>
      cases hb with
      | inl hb => exact ihn hnd.1 a b ha hb hab
      | inr hb =>
        exfalso
        have ha' : a.id ∈ nodeIds n := occursN_id_mem a n ha
        have hb' : b.id ∈ allIdsL ns := occursL_id_mem b ns hb
        exact hnd.2.2 (hab ▸ ha') hb'
    | inr ha =>
      cases hb with
      | inl hb =>
        exfalso
        have ha' : a.id ∈ allIdsL ns := occursL_id_mem a ns ha
        have hb' : b.id ∈ nodeIds n := occursN_id_mem b n hb
        exact hnd.2.2 (hab ▸ hb') ha'
      | inr hb => exact ihl hnd.2.1 a b ha hb hab
  · intro j nm ty ct fp ie ix _ a b ha hb _
    rw [occursN.eq_def] at ha hb
    rw [ha, hb]
  · intro j nm ty ct fp cs ie ix ih hnd a b ha hb hab
    rw [nodeIds_mk_some, List.nodup_cons] at hnd
    rw [occursN.eq_def] at ha hb
    cases ha with
    | inl ha =>
      cases hb with
      | inl hb => rw [ha, hb]
      | inr hb =>
        exfalso
        have : b.id ∈ allIdsL cs := occursL_id_mem b cs hb
        rw [← hab, ha, FSNode.id] at this
        exact hnd.1 this
    | inr ha =>
      cases hb with
      | inl hb =>
        exfalso
        have : a.id ∈ allIdsL cs := occursL_id_mem a cs ha
        rw [hab, hb, FSNode.id] at this
        exact hnd.1 this
      | inr hb => exact ih hnd.2 a b ha hb hab

/-- Auxiliary permutation step: pulling a block over a head block. -/
theorem perm_block_swap (a b c : List String) :
    (a ++ (b ++ c)).Perm (b ++ (a ++ c)) := by
  rw [← List.append_assoc, ← List.append_assoc]
  exact List.perm_append_comm.append_right _

/-- Removing a found node splits the id multiset of the forest into the
removed subtree's ids and the remaining forest's ids. -/
theorem allIdsL_perm_remove (i : String) :
    ∀ l : List FSNode, (allIdsL l).Nodup → ∀ n, findNodeById i l = some n →
      (allIdsL l).Perm (nodeIds n ++ allIdsL (removeNodeFromTree i l)) := by
  refine forestInd ?_ ?_ ?_ ?_
    (motive := fun n => (nodeIds n).Nodup → ∀ m, findInNode i n = some m → ¬ n.id = i →
      (nodeIds n).Perm (nodeIds m ++ nodeIds (removeChildren i n)))
  · intro _ n h
    exact Option.noConfusion h
  · intro n ns ihn ihl hnd m h
    have hnd' := hnd
    rw [allIdsL, List.nodup_append] at hnd'
    rw [findNodeById_cons] at h
    cases hf : findInNode i n with
    | some m' =>
      rw [hf] at h
      cases h
      have hcn : containsIdN i n = true := by
        cases hcn : containsIdN i n
        · rw [← findInNode_none_iff, hf] at hcn; cases hcn
        · rfl
      have hins : i ∈ nodeIds n := (mem_nodeIds_iff i n).mpr hcn
      have hnotin : containsIdL i ns = false := by
        cases hcl : containsIdL i ns
        · rfl
        · exact absurd ((mem_allIdsL_iff i ns).mpr hcl) (fun h2 => hnd'.2.2 hins h2)
      by_cases hni : n.id = i
      · have : findInNode i n = some n := findInNode_self i n hni
        rw [hf] at this
        cases this
        rw [removeNodeFromTree_cons_pos _ _ _ hni, removeNodeFromTree_noop i ns hnotin, allIdsL]
      · have hp := ihn hnd'.1 m hf hni
        rw [removeNodeFromTree_cons_neg _ _ _ hni, removeNodeFromTree_noop i ns hnotin,
          allIdsL, allIdsL]
        have h1 := hp.append_right (allIdsL ns)
        rw [List.append_assoc] at h1
        exact h1
    | none =>
      rw [hf] at h
      have hcn : containsIdN i n = false := (findInNode_none_iff i n).mp hf
      have hni : ¬ n.id = i := by
        intro heq
        have : i ∈ nodeIds n := heq ▸ id_mem_nodeIds n
        rw [mem_nodeIds_iff, hcn] at this
        cases this
      rw [removeNodeFromTree_cons_neg _ _ _ hni, removeChildren_noop i n hcn, allIdsL, allIdsL]
      exact ((ihl hnd'.2.1 m h).append_left _).trans (perm_block_swap _ _ _)
  · intro nid nm ty ct fp ie ix _ m h hni
    rw [findInNode] at h
    rw [FSNode.id] at hni
    rw [if_neg hni] at h
    exact Option.noConfusion h
  · intro nid nm ty ct fp cs ie ix ih hnd m h hni
    rw [findInNode] at h
    rw [FSNode.id] at hni
    rw [if_neg hni] at h
    rw [nodeIds_mk_some, List.nodup_cons] at hnd
    have hp := ih hnd.2 m h
    rw [removeChildren_mk_some, nodeIds_mk_some, nodeIds_mk_some]
    exact (hp.cons nid).trans List.perm_middle.symm

/-! ### No-op lemmas for insertion and parent search when the target id is absent -/

theorem mem_allIdsL_of_mem (n : FSNode) (l : List FSNode) (hn : n ∈ l) :
    n.id ∈ allIdsL l := by
  induction l with
  | nil => cases hn
  | cons m ms ih =>
    rw [allIdsL, List.mem_append]
    cases hn with
    | head => exact Or.inl (id_mem_nodeIds n)
    | tail _ hmem => exact Or.inr (ih hmem)

theorem any_id_false_of_not_contains (tid : String) (l : List FSNode)
    (h : containsIdL tid l = false) : l.any (fun n => n.id == tid) = false := by
  rw [List.any_eq_false]
  intro n hn hbeq
  have heq : n.id = tid := by simpa using hbeq
  have hmem : tid ∈ allIdsL l := heq ▸ mem_allIdsL_of_mem n l hn
  rw [mem_allIdsL_iff, h] at hmem
  cases hmem

theorem insertDeep_noop (w : FSNode) (tid : String) (pos : Pos) :
    ∀ l : List FSNode, containsIdL tid l = false → insertDeep w tid pos l = l := by
  refine forestInd ?_ ?_ ?_ ?_
    (motive := fun n => containsIdN tid n = false → insertDeepN w tid pos n = n)
  · intro _; rfl
  · intro n ns ihn ihl h
    rw [containsIdL, Bool.or_eq_false_iff] at h
    rw [insertDeep, ihn h.1, ihl h.2]
  · intro nid nm ty ct fp ie ix _
    rw [insertDeepN]
  · intro nid nm ty ct fp cs ie ix ih h
    rw [containsIdN, Bool.or_eq_false_iff] at h
    rw [insertDeepN, any_id_false_of_not_contains tid cs h.2]
    simp only [Bool.false_eq_true, if_false]
    rw [ih h.2]

theorem insertNodeAtPosition_noop (w : FSNode) (tid : String) (pos : Pos)
    (l : List FSNode) (h : containsIdL tid l = false) :
    insertNodeAtPosition w tid pos l = l := by
  rw [insertNodeAtPosition, any_id_false_of_not_contains tid l h]
  simp only [Bool.false_eq_true, if_false]
  exact insertDeep_noop w tid pos l h

theorem findParentNode_cons (tid : String) (n : FSNode) (ns : List FSNode)
    (p : Option FSNode) :
    findParentNode tid (n :: ns) p
      = if n.id = tid then p
        else match findParentChildren tid n with
          | some q => some q
          | none => findParentNode tid ns p := rfl

theorem findParentNode_none (tid : String) :
    ∀ l : List FSNode, containsIdL tid l = false →
      ∀ p : Option FSNode, findParentNode tid l p = none := by
  refine forestInd ?_ ?_ ?_ ?_
    (motive := fun n => containsIdN tid n = false → findParentChildren tid n = none)
  · intro _ p; rfl
  · intro n ns ihn ihl h p
    rw [containsIdL, Bool.or_eq_false_iff] at h
    have hni : ¬ n.id = tid := by
      intro heq
      have hmem : tid ∈ nodeIds n := heq ▸ id_mem_nodeIds n
      rw [mem_nodeIds_iff, h.1] at hmem
      cases hmem
    rw [findParentNode_cons, if_neg hni, ihn h.1]
    exact ihl h.2 p
  · intro nid nm ty ct fp ie ix _
    rfl
  · intro nid nm ty ct fp cs ie ix ih h
    rw [containsIdN, Bool.or_eq_false_iff] at h
    rw [findParentChildren]
    exact ih h.2 _

/-! ### Claim C1 -/

/-- The concrete folder `A` with single child folder `D` used to evaluate
the cyclic move. -/
def folderA : FSNode :=
  .mk "A" "A" .folder none none (some [.mk "D" "D" .folder none none (some []) none none]) none none

/-- Claim C1 (code evaluated at the failing input): moving folder `A` into
its descendant `D` does not leave the tree unchanged and is not rejected;
the source removes `A`'s subtree (taking `D` with it) and then fails to
re-insert it because `D` is no longer in the tree, so the whole subtree is
silently lost: the resulting forest is empty. -/
theorem moveNodeToFolder_descendant_eval :
    moveNodeToFolder "A" (some "D") [folderA] = []
      ∧ containsIdL "A" [folderA] = true
      ∧ containsIdL "D" [folderA] = true := by
  exact ⟨rfl, rfl, rfl⟩

/-! ### Claim C2 -/

/-- Claim C2 fails on the code: with the one-file tree `[x]`,
`moveNodeToPosition(x, x, before)` is not a no-op — it deletes the node. -/
theorem moveNodeToPosition_self_counterexample :
    moveNodeToPosition "x" "x" .before [.mk "x" "x" .file (some "c") none none none none] = []
      ∧ containsIdL "x" [.mk "x" "x" .file (some "c") none none none none] = true := by
  exact ⟨rfl, rfl⟩

/-- Claim C2 amended: when the node exists and either `nodeId =
targetNodeId` or `targetNodeId` occurs nowhere in the tree,
`moveNodeToPosition` is not a no-op: it removes the node's entire subtree
and fails to re-insert it (the result is exactly
`removeNodeFromTree nodeId`), so the node is lost. Only a missing
`nodeId` gives a no-op. -/
theorem moveNodeToPosition_self_or_missing_target_loses_node
    (nid tid : String) (pos : Pos) (t : List FSNode)
    (hc : containsIdL nid t = true)
    (h : tid = nid ∨ containsIdL tid t = false) :
    moveNodeToPosition nid tid pos t = removeNodeFromTree nid t
      ∧ containsIdL nid (moveNodeToPosition nid tid pos t) = false
      ∧ moveNodeToPosition nid tid pos t ≠ t := by
  cases hfind : findNodeById nid t with
  | none =>
    rw [findNodeById_none_iff] at hfind
    rw [hfind] at hc
    cases hc
  | some w =>
    have htid : containsIdL tid (removeNodeFromTree nid t) = false := by
      cases h with
      | inl h => rw [h]; exact containsIdL_removeNodeFromTree_self nid t
      | inr h =>
        cases hcl : containsIdL tid (removeNodeFromTree nid t)
        · rfl
        · rw [containsIdL_of_remove nid tid t hcl] at h
          cases h
    have hres : moveNodeToPosition nid tid pos t = removeNodeFromTree nid t := by
      rw [moveNodeToPosition, hfind]
      show (match findParentNode tid (removeNodeFromTree nid t) none with
            | some p => updateParent p.id w tid pos (removeNodeFromTree nid t)
            | none => insertNodeAtPosition w tid pos (removeNodeFromTree nid t))
          = removeNodeFromTree nid t
      rw [findParentNode_none tid _ htid none]
      exact insertNodeAtPosition_noop w tid pos _ htid
    refine ⟨hres, ?_, ?_⟩
    · rw [hres]
      exact containsIdL_removeNodeFromTree_self nid t
    · intro heq
      have : containsIdL nid (moveNodeToPosition nid tid pos t) = false := by
        rw [hres]
        exact containsIdL_removeNodeFromTree_self nid t
      rw [heq, hc] at this
      cases this

/-- Witness for the amended C2 theorem at a concrete input: a root file
`x` next to a folder `f`, moved relative to the absent target `zz`. -/
theorem moveNodeToPosition_lost_witness :
    moveNodeToPosition "x" "zz" Pos.after
        [.mk "x" "x" .file (some "c") none none none none,
         .mk "f" "f" .folder none none (some []) none none]
      = [.mk "f" "f" .folder none none (some []) none none]
      ∧ containsIdL "x" (moveNodeToPosition "x" "zz" Pos.after
        [.mk "x" "x" .file (some "c") none none none none,
         .mk "f" "f" .folder none none (some []) none none]) = false := by
  have h := moveNodeToPosition_self_or_missing_target_loses_node "x" "zz" Pos.after
    [.mk "x" "x" .file (some "c") none none none none,
     .mk "f" "f" .folder none none (some []) none none]
    (by rfl) (Or.inr (by rfl))
  exact ⟨h.1.trans (by rfl), h.2.1⟩

/-! ### Claim C3 -/

theorem deleteNodes_nil (t : List FSNode) : deleteNodes [] t = t := rfl

theorem deleteNodes_cons (j : String) (ids : List String) (t : List FSNode) :
    deleteNodes (j :: ids) t = deleteNodes ids (removeNodeFromTree j t) := rfl

theorem not_contains_remove (i j : String) (t : List FSNode)
    (h : containsIdL j t = false) : containsIdL j (removeNodeFromTree i t) = false := by
  cases hc : containsIdL j (removeNodeFromTree i t)
  · rfl
  · rw [containsIdL_of_remove i j t hc] at h
    cases h

theorem deleteNodes_preserves_absence (j : String) (ids : List String) :
    ∀ t : List FSNode, containsIdL j t = false →
      containsIdL j (deleteNodes ids t) = false := by
  induction ids with
  | nil => intro t h; exact h
  | cons k ids ih =>
    intro t h
    rw [deleteNodes_cons]
    exact ih _ (not_contains_remove k j t h)

theorem deleteNodes_removes (ids : List String) :
    ∀ t : List FSNode, ∀ j ∈ ids, containsIdL j (deleteNodes ids t) = false := by
  induction ids with
  | nil => intro t j hj; cases hj
  | cons k ids ih =>
    intro t j hj
    rw [deleteNodes_cons]
    cases hj with
    | head =>
      exact deleteNodes_preserves_absence k ids _ (containsIdL_removeNodeFromTree_self k t)
    | tail _ hmem => exact ih _ j hmem

theorem deleteNodes_noop (ids : List String) :
    ∀ t : List FSNode, (∀ j ∈ ids, containsIdL j t = false) → deleteNodes ids t = t := by
  induction ids with
  | nil => intro t _; rfl
  | cons k ids ih =>
    intro t h
    rw [deleteNodes_cons, removeNodeFromTree_noop k t (h k (List.mem_cons_self k ids))]
    exact ih t (fun j hj => h j (List.mem_cons_of_mem k hj))

/-- The whole subtree of the (unique) node with id `i` disappears from
the forest when `removeNodeFromTree i` runs. -/
theorem removeNodeFromTree_removes_subtree (i : String) (t : List FSNode) (n : FSNode)
    (hnd : (allIdsL t).Nodup) (hfind : findNodeById i t = some n) :
    ∀ j ∈ nodeIds n, containsIdL j (removeNodeFromTree i t) = false := by
  intro j hj
  have hperm := allIdsL_perm_remove i t hnd n hfind
  have hnd2 : (nodeIds n ++ allIdsL (removeNodeFromTree i t)).Nodup := hperm.nodup hnd
  rw [List.nodup_append] at hnd2
  cases hc : containsIdL j (removeNodeFromTree i t)
  · rfl
  · exact absurd ((mem_allIdsL_iff j _).mpr hc) (fun h2 => hnd2.2.2 hj h2)

/-- Claim C3 fails on the code for `removeNode`: the nested file `a`
inside folder `f` is not removed — `removeNode` filters the root level
only, so the call is a no-op although a node with the id exists. -/
theorem removeNode_nested_counterexample :
    removeNode "a"
        [.mk "f" "f" .folder none none (some [.mk "a" "a" .file (some "x") none none none none]) none none]
      = [.mk "f" "f" .folder none none (some [.mk "a" "a" .file (some "x") none none none none]) none none]
      ∧ containsIdL "a"
        [.mk "f" "f" .folder none none (some [.mk "a" "a" .file (some "x") none none none none]) none none]
        = true := ⟨rfl, rfl⟩

/-- Claim C3 amended: `deleteNodes` (built on `removeNodeFromTree`, like
`deleteNode`) removes the node with each listed id together with its
entire subtree wherever it occurs, and is a value-level no-op for ids that
are absent; `removeNode`, by contrast, removes only root-level nodes with
the id — survivors of the root filter are kept whole, and nested
occurrences are untouched (see the counterexample). -/
theorem removeNode_root_deleteNodes_subtrees (t : List FSNode) (ids : List String)
    (i : String) (n : FSNode)
    (hnd : (allIdsL t).Nodup) (hfind : findNodeById i t = some n) :
    (∀ j ∈ ids, containsIdL j (deleteNodes ids t) = false)
      ∧ ((∀ j ∈ ids, containsIdL j t = false) → deleteNodes ids t = t)
      ∧ (∀ j ∈ nodeIds n, containsIdL j (removeNodeFromTree i t) = false)
      ∧ (∀ m ∈ removeNode i t, m ∈ t ∧ m.id ≠ i) := by
  refine ⟨deleteNodes_removes ids t, deleteNodes_noop ids t,
    removeNodeFromTree_removes_subtree i t n hnd hfind, ?_⟩
  intro m hm
  rw [removeNode, List.mem_filter] at hm
  refine ⟨hm.1, ?_⟩
  have := hm.2
  simpa using this

/-- Witness for the amended C3 theorem: deleting the folder `f` (with its
nested file `a`) from a two-root forest. -/
theorem removeNode_root_deleteNodes_subtrees_witness :
    ((allIdsL [FSNode.mk "f" "f" .folder none none
        (some [.mk "a" "a" .file (some "x") none none none none]) none none,
      FSNode.mk "b" "b" .file (some "y") none none none none]).Nodup
      ∧ findNodeById "f" [FSNode.mk "f" "f" .folder none none
        (some [.mk "a" "a" .file (some "x") none none none none]) none none,
      FSNode.mk "b" "b" .file (some "y") none none none none]
        = some (FSNode.mk "f" "f" .folder none none
          (some [.mk "a" "a" .file (some "x") none none none none]) none none))
      ∧ (∀ j ∈ ["f"], containsIdL j (deleteNodes ["f"]
          [FSNode.mk "f" "f" .folder none none
            (some [.mk "a" "a" .file (some "x") none none none none]) none none,
          FSNode.mk "b" "b" .file (some "y") none none none none]) = false) := by
  refine ⟨⟨by decide, rfl⟩, ?_⟩
  exact (removeNode_root_deleteNodes_subtrees
    [FSNode.mk "f" "f" .folder none none
      (some [.mk "a" "a" .file (some "x") none none none none]) none none,
     FSNode.mk "b" "b" .file (some "y") none none none none]
    ["f"] "f"
    (FSNode.mk "f" "f" .folder none none
      (some [.mk "a" "a" .file (some "x") none none none none]) none none)
    (by decide) rfl).1

/-! ### Claim C4 -/

/-- Claim C4, amended part: when no file node's normalized path matches,
`updateFileContent` returns a tree that is equal as a value to the input
(every node is rebuilt unchanged). -/
theorem updateFileContent_no_match_value_eq (p c : String) (t : List FSNode)
    (h : hasMatchingFileL (normalizeSlashes p) t = false) :
    updateFileContent p c t = t := by
  rw [updateFileContent]
  revert h
  generalize normalizeSlashes p = np
  revert t
  refine forestInd ?_ ?_ ?_ ?_
    (motive := fun n => hasMatchingFileN np n = false → updateFileContentN np c n = n)
  · intro _; rfl
  · intro n ns ihn ihl h
    rw [hasMatchingFileL, Bool.or_eq_false_iff] at h
    rw [updateFileContentGo, ihn h.1, ihl h.2]
  · intro nid nm ty ct fp ie ix h
    rw [hasMatchingFileN] at h
    rw [updateFileContentN, if_neg (by simpa using h)]
  · intro nid nm ty ct fp cs ie ix ih h
    rw [hasMatchingFileN, Bool.or_eq_false_iff] at h
    rw [updateFileContentN, if_neg (by simpa using h.1), ih h.2]

/-- Claim C4 fails at the reference level: on a one-file tree whose path
does not match, the array handed back to the store carries the fresh
reference `1`, not the original reference `0` — `Array.prototype.map`
always allocates — even though the tree value is unchanged. -/
theorem updateFileContentRef_counterexample :
    (updateFileContentRef "b.txt" "z" 0
        [.mk "fa" "a.txt" .file (some "old") (some "a.txt") none none none] 1).1 = 1
      ∧ (1 : Nat) ≠ 0
      ∧ hasMatchingFileL (normalizeSlashes "b.txt")
          [.mk "fa" "a.txt" .file (some "old") (some "a.txt") none none none] = false
      ∧ (updateFileContentRef "b.txt" "z" 0
          [.mk "fa" "a.txt" .file (some "old") (some "a.txt") none none none] 1).2
        = [.mk "fa" "a.txt" .file (some "old") (some "a.txt") none none none] := by
  exact ⟨rfl, by decide, rfl, rfl⟩

/-- Witness for the amended C4 theorem at a concrete input. -/
theorem updateFileContent_no_match_value_eq_witness :
    hasMatchingFileL (normalizeSlashes "b.txt")
        [.mk "fa" "a.txt" .file (some "old") (some "a.txt") none none none] = false
      ∧ updateFileContent "b.txt" "z"
          [.mk "fa" "a.txt" .file (some "old") (some "a.txt") none none none]
        = [.mk "fa" "a.txt" .file (some "old") (some "a.txt") none none none] :=
  ⟨rfl, updateFileContent_no_match_value_eq "b.txt" "z"
    [.mk "fa" "a.txt" .file (some "old") (some "a.txt") none none none] rfl⟩

/-! ### Claim C8 -/

theorem idTypePairsL_removeNodeFromTree_sublist (i : String) :
    ∀ l : List FSNode,
      (idTypePairsL (removeNodeFromTree i l)).Sublist (idTypePairsL l) := by
  refine forestInd ?_ ?_ ?_ ?_
    (motive := fun n => (idTypePairsN (removeChildren i n)).Sublist (idTypePairsN n))
  · exact List.Sublist.refl _
  · intro n ns ihn ihl
    by_cases hid : n.id = i
    · rw [removeNodeFromTree_cons_pos _ _ _ hid, idTypePairsL]
      exact ihl.trans (List.sublist_append_right _ _)
    · rw [removeNodeFromTree_cons_neg _ _ _ hid, idTypePairsL, idTypePairsL]
      exact ihn.append ihl
  · intro nid nm ty ct fp ie ix
    rw [removeChildren_mk_none]
  · intro nid nm ty ct fp cs ie ix ih
    rw [removeChildren_mk_some, idTypePairsN, idTypePairsN]
    exact ih.cons₂ (nid, ty)

/-- When every node carrying the target id is a file (or no node carries
it), `addNodeToFolder`'s recursion finds no folder to append to and
rebuilds the forest unchanged: the node to insert is dropped. -/
theorem addNodeToFolderGo_noop (w : FSNode) (fid : String) :
    ∀ l : List FSNode,
      (∀ pr ∈ idTypePairsL l, pr.1 = fid → pr.2 = NodeType.file) →
      addNodeToFolderGo w fid l = l := by
  refine forestInd ?_ ?_ ?_ ?_
    (motive := fun n => (∀ pr ∈ idTypePairsN n, pr.1 = fid → pr.2 = NodeType.file) →
      addNodeToFolderN w fid n = n)
  · intro _; rfl
  · intro n ns ihn ihl h
    rw [addNodeToFolderGo]
    rw [ihn (fun pr hpr => h pr (by
        rw [idTypePairsL, List.mem_append]; exact Or.inl hpr)),
      ihl (fun pr hpr => h pr (by
        rw [idTypePairsL, List.mem_append]; exact Or.inr hpr))]
  · intro nid nm ty ct fp ie ix h
    have hcond : ¬ (nid = fid ∧ ty = NodeType.folder) := by
      rintro ⟨h1, h2⟩
      have := h (nid, ty) (by rw [idTypePairsN]; exact List.mem_singleton_self _) h1
      rw [h2] at this
      cases this
    rw [addNodeToFolderN, if_neg hcond]
  · intro nid nm ty ct fp cs ie ix ih h
    have hcond : ¬ (nid = fid ∧ ty = NodeType.folder) := by
      rintro ⟨h1, h2⟩
      have := h (nid, ty) (by rw [idTypePairsN]; exact List.mem_cons_self _ _) h1
      rw [h2] at this
      cases this
    rw [addNodeToFolderN, if_neg hcond]
    rw [ih (fun pr hpr => h pr (by
      rw [idTypePairsN]; exact List.mem_cons_of_mem _ hpr))]

/-- Claim C8: when the target folder id is non-null and names no folder in
the tree (it is a file's id, or absent altogether), `moveNodeToFolder`
removes the node's entire subtree and never re-inserts it: the result is
exactly the removal, the node is gone, and the call is not a no-op. -/
theorem moveNodeToFolder_invalid_target_drops_node (t : List FSNode)
    (nid tid : String) (w : FSNode)
    (hfind : findNodeById nid t = some w)
    (htgt : ∀ pr ∈ idTypePairsL t, pr.1 = tid → pr.2 = NodeType.file) :
    moveNodeToFolder nid (some tid) t = removeNodeFromTree nid t
      ∧ containsIdL nid (moveNodeToFolder nid (some tid) t) = false
      ∧ moveNodeToFolder nid (some tid) t ≠ t := by
  have hres : moveNodeToFolder nid (some tid) t = removeNodeFromTree nid t := by
    rw [moveNodeToFolder, hfind]
    show addNodeToFolder w (some tid) (removeNodeFromTree nid t) = removeNodeFromTree nid t
    rw [addNodeToFolder]
    exact addNodeToFolderGo_noop w tid _ (fun pr hpr =>
      htgt pr ((idTypePairsL_removeNodeFromTree_sublist nid t).mem hpr))
  refine ⟨hres, ?_, ?_⟩
  · rw [hres]
    exact containsIdL_removeNodeFromTree_self nid t
  · intro heq
    have hcontains : containsIdL nid t = true := findNodeById_contains nid t w hfind
    have : containsIdL nid (moveNodeToFolder nid (some tid) t) = false := by
      rw [hres]
      exact containsIdL_removeNodeFromTree_self nid t
    rw [heq, hcontains] at this
    cases this

/-- Witness for C8: moving file `x` "into" file `f` silently deletes `x`. -/
theorem moveNodeToFolder_invalid_target_drops_node_witness :
    (findNodeById "x" [FSNode.mk "x" "x" .file (some "c") none none none none,
        FSNode.mk "f" "f" .file (some "d") none none none none]
      = some (FSNode.mk "x" "x" .file (some "c") none none none none))
      ∧ (∀ pr ∈ idTypePairsL [FSNode.mk "x" "x" .file (some "c") none none none none,
          FSNode.mk "f" "f" .file (some "d") none none none none],
          pr.1 = "f" → pr.2 = NodeType.file)
      ∧ moveNodeToFolder "x" (some "f")
          [FSNode.mk "x" "x" .file (some "c") none none none none,
           FSNode.mk "f" "f" .file (some "d") none none none none]
        = [FSNode.mk "f" "f" .file (some "d") none none none none] := by
  refine ⟨rfl, by decide, ?_⟩
  have h := moveNodeToFolder_invalid_target_drops_node
    [FSNode.mk "x" "x" .file (some "c") none none none none,
     FSNode.mk "f" "f" .file (some "d") none none none none]
    "x" "f" (FSNode.mk "x" "x" .file (some "c") none none none none)
    rfl (by decide)
  exact h.1.trans (by rfl)

/-! ### Claim C9 -/

/-- Claim C9: under the data-model invariant that file nodes carry no
children array, `updateFileContent` agrees with the claim-side definition
that updates the content of every file node with a matching normalized
path — duplicates included, at root or nested. -/
theorem updateFileContent_updates_all_matches (p c : String) (t : List FSNode)
    (hwf : fileNodesClosedL t = true) :
    updateFileContent p c t = updateAllMatchingL (normalizeSlashes p) c t := by
  rw [updateFileContent]
  revert hwf
  generalize normalizeSlashes p = np
  revert t
  refine forestInd ?_ ?_ ?_ ?_
    (motive := fun n => fileNodesClosedN n = true →
      updateFileContentN np c n = updateAllMatchingN np c n)
  · intro _; rfl
  · intro n ns ihn ihl h
    rw [fileNodesClosedL, Bool.and_eq_true] at h
    rw [updateFileContentGo, updateAllMatchingL, ihn h.1, ihl h.2]
  · intro nid nm ty ct fp ie ix _
    rw [updateFileContentN, updateAllMatchingN]
    by_cases hm : matchesPath np (FSNode.mk nid nm ty ct fp none ie ix)
    · rw [if_pos hm, if_pos hm]
    · rw [if_neg hm, if_neg hm]
  · intro nid nm ty ct fp cs ie ix ih hwf
    cases ty with
    | file =>
      exfalso
      rw [fileNodesClosedN] at hwf
      cases hwf
    | folder =>
      have hm : ¬ matchesPath np (FSNode.mk nid nm NodeType.folder ct fp (some cs) ie ix) := by
        rintro ⟨_, h2⟩
        rw [FSNode.type] at h2
        cases h2
      rw [updateFileContentN, if_neg hm, updateAllMatchingN]
      rw [fileNodesClosedN] at hwf
      rw [ih hwf, if_neg hm]

/-- Witness for C9: two duplicate file nodes for the same on-disk path
(one with Windows separators, one nested in a folder) both receive the
new content. -/
theorem updateFileContent_updates_all_matches_witness :
    fileNodesClosedL
        [FSNode.mk "fa" "a.txt" .file (some "old") (some "C:\\d\\a.txt") none none none,
         FSNode.mk "fo" "sub" .folder none none
           (some [.mk "fb" "a.txt" .file (some "old") (some "C:/d/a.txt") none none none])
           none none] = true
      ∧ updateFileContent "C:/d/a.txt" "new"
          [FSNode.mk "fa" "a.txt" .file (some "old") (some "C:\\d\\a.txt") none none none,
           FSNode.mk "fo" "sub" .folder none none
             (some [.mk "fb" "a.txt" .file (some "old") (some "C:/d/a.txt") none none none])
             none none]
        = updateAllMatchingL (normalizeSlashes "C:/d/a.txt") "new"
          [FSNode.mk "fa" "a.txt" .file (some "old") (some "C:\\d\\a.txt") none none none,
           FSNode.mk "fo" "sub" .folder none none
             (some [.mk "fb" "a.txt" .file (some "old") (some "C:/d/a.txt") none none none])
             none none]
      ∧ updateAllMatchingL (normalizeSlashes "C:/d/a.txt") "new"
          [FSNode.mk "fa" "a.txt" .file (some "old") (some "C:\\d\\a.txt") none none none,
           FSNode.mk "fo" "sub" .folder none none
             (some [.mk "fb" "a.txt" .file (some "old") (some "C:/d/a.txt") none none none])
             none none]
        = [FSNode.mk "fa" "a.txt" .file (some "new") (some "C:\\d\\a.txt") none none none,
           FSNode.mk "fo" "sub" .folder none none
             (some [.mk "fb" "a.txt" .file (some "new") (some "C:/d/a.txt") none none none])
             none none] :=
  ⟨rfl, updateFileContent_updates_all_matches "C:/d/a.txt" "new"
    [FSNode.mk "fa" "a.txt" .file (some "old") (some "C:\\d\\a.txt") none none none,
     FSNode.mk "fo" "sub" .folder none none
       (some [.mk "fb" "a.txt" .file (some "old") (some "C:/d/a.txt") none none none])
       none none] rfl, rfl⟩

/-! ### Claim C6 -/

/-- The tree of the C6 scenario: an empty store, `createFolder` for
`docs`, `addNodes` for the root file `readme.md` with content `hello`,
then `moveNodeToFolder(readme.md.id, docs.id)`. -/
def scenarioTree : List FSNode :=
  moveNodeToFolder "2" (some "1")
    (addNodes (createFolder "1" "docs" [])
      [.mk "2" "readme.md" .file (some "hello") none none none none])

/-- Claim C6 fails on the serializer: in the scenario the FOLDER STRUCTURE
section lists only `docs` — a single line — because `traverseStructure`
pushes display lines for folders only; `readme.md` never appears in that
section, contrary to the claim that it is listed nested under `docs`. -/
theorem scenario_folder_structure_counterexample :
    scenarioTree
      = [.mk "1" "docs" .folder none none
          (some [.mk "2" "readme.md" .file (some "hello") none none none none]) none none]
      ∧ (travL scenarioTree [] "").1 = ["docs"]
      ∧ (travL scenarioTree [] "").1.length = 1 := ⟨rfl, rfl, rfl⟩

set_option maxRecDepth 8192 in
/-- Claim C6 amended: in the scenario the tree is
`[{folder docs, children: [{file readme.md, content: hello}]}]` and the
serialized output has a FOLDER STRUCTURE block listing only `docs` (files
are never listed in that block), followed by a FILES block with the
`readme.md (markdown)` header, a dash rule and the literal content
`hello`. -/
theorem scenario_serialized_output :
    generateStructuredOutput scenarioTree
      = "FOLDER STRUCTURE:\ndocs\n\nFILES:\n" ++ eqRule
          ++ "\n\nreadme.md (markdown)\n" ++ dashRule ++ "\nhello\n" := by
  rfl

/-! ### Claim C7 -/

theorem Watch.run_nil_some (d : Nat) : Watch.run (some d) [] = [d] := rfl

theorem Watch.run_cons_none (t : Nat) (ts : List Nat) :
    Watch.run none (t :: ts) = Watch.run (some (t + Watch.debounceMs)) ts := rfl

theorem Watch.run_cons_some (d t : Nat) (ts : List Nat) :
    Watch.run (some d) (t :: ts)
      = if d ≤ t then d :: Watch.run (some (t + Watch.debounceMs)) ts
        else Watch.run (some (t + Watch.debounceMs)) ts := rfl

/-- While every next notification arrives strictly before the pending
deadline, the timer keeps being replaced and fires exactly once, 100 ms
after the last notification. -/
theorem Watch.run_pending (ts : List Nat) : ∀ t0 : Nat,
    List.Chain' (fun a b => a ≤ b ∧ b < a + Watch.debounceMs) (t0 :: ts) →
    Watch.run (some (t0 + Watch.debounceMs)) ts
      = [ts.getLastD t0 + Watch.debounceMs] := by
  induction ts with
  | nil => intro t0 _; rfl
  | cons t1 ts ih =>
    intro t0 hchain
    rw [List.chain'_cons] at hchain
    have hlt : ¬ (t0 + Watch.debounceMs ≤ t1) := by
      have := hchain.1.2
      omega
    rw [Watch.run_cons_some, if_neg hlt, ih t1 hchain.2, List.getLastD_cons]

/-- Claim C7: a burst of `N ≥ 1` raw change notifications on one watched
path, each arriving strictly within the 100 ms debounce window of the
previous one, produces exactly one callback invocation, at 100 ms after
the last notification, and the content delivered is the content read at
that fire time. -/
theorem debounce_burst_single_fire (t0 : Nat) (ts : List Nat) (read : Nat → String)
    (hchain : List.Chain' (fun a b => a ≤ b ∧ b < a + Watch.debounceMs) (t0 :: ts)) :
    Watch.fireTimes (t0 :: ts) = [ts.getLastD t0 + Watch.debounceMs]
      ∧ Watch.deliveries (t0 :: ts) read
        = [(ts.getLastD t0 + Watch.debounceMs,
            read (ts.getLastD t0 + Watch.debounceMs))] := by
  have h1 : Watch.fireTimes (t0 :: ts) = [ts.getLastD t0 + Watch.debounceMs] := by
    rw [Watch.fireTimes, Watch.run_cons_none]
    exact Watch.run_pending ts t0 hchain
  refine ⟨h1, ?_⟩
  rw [Watch.deliveries, h1, List.map_singleton]

/-- Witness for C7: three notifications at 0, 50 and 120 ms (gaps 50 and
70 ms, both within the window) fire once at 220 ms with the content read
then. -/
theorem debounce_burst_single_fire_witness :
    List.Chain' (fun a b => a ≤ b ∧ b < a + Watch.debounceMs) [0, 50, 120]
      ∧ Watch.fireTimes [0, 50, 120] = [220]
      ∧ Watch.deliveries [0, 50, 120]
          (fun t => if 220 ≤ t then "after" else "during") = [(220, "after")] := by
  have hch : List.Chain' (fun a b => a ≤ b ∧ b < a + Watch.debounceMs) [0, 50, 120] := by
    rw [List.chain'_cons, List.chain'_cons]
    exact ⟨⟨by decide, by decide⟩, ⟨by decide, by decide⟩, List.chain'_singleton _⟩
  have h := debounce_burst_single_fire 0 [50, 120]
    (fun t => if 220 ≤ t then "after" else "during") hch
  exact ⟨hch, h.1.trans (by rfl), h.2.trans (by rfl)⟩

/-! ### Occurrence lemmas for folders with a given children list -/

theorem occursN_self (n : FSNode) : occursN n n := by
  cases n with
  | mk nid nm ty ct fp ch ie ix =>
    cases ch with
    | none => rw [occursN.eq_def]
    | some cs => rw [occursN.eq_def]; exact Or.inl rfl

theorem occursN_nodeIds_sublist (m n : FSNode) (h : occursN m n) :
    (nodeIds m).Sublist (nodeIds n) := by
  have hs := occursL_nodeIds_sublist m [n] (Or.inl h)
  rwa [allIdsL, allIdsL, List.append_nil] at hs

theorem hFCL_occurs (pid : String) (cs : List FSNode) :
    ∀ l : List FSNode, hasFolderChildrenL pid cs l →
      ∃ nm ct fp ie ix, occursL (.mk pid nm .folder ct fp (some cs) ie ix) l := by
  refine forestInd ?_ ?_ ?_ ?_
    (motive := fun n => hasFolderChildrenN pid cs n →
      ∃ nm ct fp ie ix, occursN (.mk pid nm .folder ct fp (some cs) ie ix) n)
  · intro h; cases h
  · intro n ns ihn ihl h
    cases h with
    | inl h =>
      obtain ⟨nm, ct, fp, ie, ix, ho⟩ := ihn h
      exact ⟨nm, ct, fp, ie, ix, Or.inl ho⟩
    | inr h =>
      obtain ⟨nm, ct, fp, ie, ix, ho⟩ := ihl h
      exact ⟨nm, ct, fp, ie, ix, Or.inr ho⟩
  · intro nid nm ty ct fp ie ix h
    rw [hasFolderChildrenN] at h
    cases h
  · intro nid nm ty ct fp l ie ix ih h
    rw [hasFolderChildrenN] at h
    cases h with
    | inl h =>
      obtain ⟨h1, h2, h3⟩ := h
      subst h1; subst h2; subst h3
      exact ⟨nm, ct, fp, ie, ix, occursN_self _⟩
    | inr h =>
      obtain ⟨nm2, ct2, fp2, ie2, ix2, ho⟩ := ih h
      refine ⟨nm2, ct2, fp2, ie2, ix2, ?_⟩
      rw [occursN.eq_def]
      exact Or.inr ho

theorem hFCL_subtree_sublist (pid : String) (cs : List FSNode) (l : List FSNode)
    (h : hasFolderChildrenL pid cs l) :
    (pid :: allIdsL cs).Sublist (allIdsL l) := by
  obtain ⟨nm, ct, fp, ie, ix, ho⟩ := hFCL_occurs pid cs l h
  have := occursL_nodeIds_sublist _ l ho
  rwa [nodeIds_mk_some] at this

theorem hFCL_pid_mem (pid : String) (cs : List FSNode) (l : List FSNode)
    (h : hasFolderChildrenL pid cs l) : pid ∈ allIdsL l :=
  (hFCL_subtree_sublist pid cs l h).mem (List.mem_cons_self _ _)

theorem hFCN_pid_mem (pid : String) (cs : List FSNode) (n : FSNode)
    (h : hasFolderChildrenN pid cs n) : pid ∈ nodeIds n := by
  have h2 : hasFolderChildrenL pid cs [n] := Or.inl h
  have := hFCL_pid_mem pid cs [n] h2
  rwa [allIdsL, allIdsL, List.append_nil] at this

theorem hFCN_subtree_sublist (pid : String) (cs : List FSNode) (n : FSNode)
    (h : hasFolderChildrenN pid cs n) :
    (pid :: allIdsL cs).Sublist (nodeIds n) := by
  have h2 : hasFolderChildrenL pid cs [n] := Or.inl h
  have := hFCL_subtree_sublist pid cs [n] h2
  rwa [allIdsL, allIdsL, List.append_nil] at this

theorem subtree_nodup_of_hFC (pid : String) (cs : List FSNode) (l : List FSNode)
    (hnd : (allIdsL l).Nodup) (h : hasFolderChildrenL pid cs l) :
    (pid :: allIdsL cs).Nodup :=
  (hFCL_subtree_sublist pid cs l h).nodup hnd

/-- Removing the subtree of a node that neither is the folder `pid` nor
contains it, and whose id does not occur among the folder's children,
keeps the folder occurrence with its children list intact. -/
theorem hFC_remove (i pid : String) (cs : List FSNode)
    (hics : containsIdL i cs = false) :
    ∀ l : List FSNode, hasFolderChildrenL pid cs l →
      (∀ m, occursL m l → m.id = i → pid ∉ nodeIds m) →
      hasFolderChildrenL pid cs (removeNodeFromTree i l) := by
  refine forestInd ?_ ?_ ?_ ?_
    (motive := fun n => hasFolderChildrenN pid cs n → ¬ n.id = i →
      (∀ m, occursN m n → m.id = i → pid ∉ nodeIds m) →
      hasFolderChildrenN pid cs (removeChildren i n))
  · intro h; cases h
  · intro n ns ihn ihl h hocc
    by_cases hni : n.id = i
    · have hpn : pid ∉ nodeIds n := hocc n (Or.inl (occursN_self n)) hni
      cases h with
      | inl h => exact absurd (hFCN_pid_mem pid cs n h) hpn
      | inr h =>
        rw [removeNodeFromTree_cons_pos _ _ _ hni]
        exact ihl h (fun m hm hmi => hocc m (Or.inr hm) hmi)
    · rw [removeNodeFromTree_cons_neg _ _ _ hni]
      cases h with
      | inl h =>
        exact Or.inl (ihn h hni (fun m hm hmi => hocc m (Or.inl hm) hmi))
      | inr h =>
        exact Or.inr (ihl h (fun m hm hmi => hocc m (Or.inr hm) hmi))
  · intro nid nm ty ct fp ie ix h _ _
    rw [hasFolderChildrenN] at h
    cases h
  · intro nid nm ty ct fp l ie ix ih h hni hocc
    rw [hasFolderChildrenN] at h
    rw [removeChildren_mk_some, hasFolderChildrenN]
    cases h with
    | inl h =>
      obtain ⟨h1, h2, h3⟩ := h
      subst h3
      exact Or.inl ⟨h1, h2, removeNodeFromTree_noop i l hics⟩
    | inr h =>
      refine Or.inr (ih h ?_)
      intro m hm hmi
      apply hocc m _ hmi
      rw [occursN.eq_def]
      exact Or.inr hm

/-! ### Locating the parent of a sibling with `findParentNode` -/

theorem findParentChildren_none (tid : String) (n : FSNode)
    (h : containsIdN tid n = false) : findParentChildren tid n = none := by
  cases n with
  | mk nid nm ty ct fp ch ie ix =>
    cases ch with
    | none => rfl
    | some cs =>
      rw [findParentChildren]
      apply findParentNode_none
      rw [containsIdN, Bool.or_eq_false_iff] at h
      exact h.2

/-- When the target is a root element of the searched list (and its id is
unique in the list), `findParentNode` returns the parent accumulator. -/
theorem findParentNode_found_at_root (tid : String) :
    ∀ cs : List FSNode, (allIdsL cs).Nodup →
      ∀ y ∈ cs, y.id = tid → ∀ p0, findParentNode tid cs p0 = p0 := by
  intro cs
  induction cs with
  | nil => intro _ y hy; cases hy
  | cons z zs ih =>
    intro hnd y hy hid p0
    rw [allIdsL, List.nodup_append] at hnd
    by_cases hz : z.id = tid
    · rw [findParentNode_cons, if_pos hz]
    · have hyzs : y ∈ zs := by
        cases hy with
        | head => exact absurd hid hz
        | tail _ h => exact h
      have htz : containsIdN tid z = false := by
        cases hc : containsIdN tid z
        · rfl
        · exfalso
          have h1 : tid ∈ nodeIds z := (mem_nodeIds_iff tid z).mpr hc
          have h2 : tid ∈ allIdsL zs := hid ▸ mem_allIdsL_of_mem y zs hyzs
          exact hnd.2.2 h1 h2
      rw [findParentNode_cons, if_neg hz, findParentChildren_none tid z htz]
      exact ih hnd.2.1 y hyzs hid p0

/-- Inside a subtree with distinct ids, the root node of a subtree that
contains the folder `pid` with children `cs` cannot itself carry an id
occurring among `cs`. -/
theorem hFCN_id_ne (pid tid : String) (cs : List FSNode) (n : FSNode)
    (hnd : (nodeIds n).Nodup) (h : hasFolderChildrenN pid cs n)
    (htid : tid ∈ allIdsL cs) : n.id ≠ tid := by
  cases n with
  | mk nid nm ty ct fp ch ie ix =>
    cases ch with
    | none => rw [hasFolderChildrenN] at h; cases h
    | some l2 =>
      rw [nodeIds_mk_some, List.nodup_cons] at hnd
      have htl2 : tid ∈ allIdsL l2 := by
        rw [hasFolderChildrenN] at h
        cases h with
        | inl h => exact h.2.2 ▸ htid
        | inr h =>
          exact (hFCL_subtree_sublist pid cs l2 h).mem (List.mem_cons_of_mem _ htid)
      rw [FSNode.id]
      intro heq
      exact hnd.1 (heq ▸ htl2)

/-- `findParentNode` started anywhere above the (unique) folder `pid`
whose children list contains the target as a direct child returns that
folder node. -/
theorem findParentNode_locates (tid pid : String) (cs : List FSNode) (y : FSNode)
    (hy : y ∈ cs) (hyid : y.id = tid) :
    ∀ l : List FSNode, (allIdsL l).Nodup → hasFolderChildrenL pid cs l →
      ∀ p0, ∃ q, findParentNode tid l p0 = some q
        ∧ q.id = pid ∧ q.children = some cs := by
  have htidcs : tid ∈ allIdsL cs := hyid ▸ mem_allIdsL_of_mem y cs hy
  refine forestInd ?_ ?_ ?_ ?_
    (motive := fun n => (nodeIds n).Nodup → hasFolderChildrenN pid cs n →
      ∃ q, findParentChildren tid n = some q ∧ q.id = pid ∧ q.children = some cs)
  · intro _ h; cases h
  · intro n ns ihn ihl hnd h p0
    rw [allIdsL, List.nodup_append] at hnd
    cases h with
    | inl h =>
      have hni : n.id ≠ tid := hFCN_id_ne pid tid cs n hnd.1 h htidcs
      obtain ⟨q, hq, hq2, hq3⟩ := ihn hnd.1 h
      refine ⟨q, ?_, hq2, hq3⟩
      rw [findParentNode_cons, if_neg hni, hq]
    | inr h =>
      have htns : tid ∈ allIdsL ns :=
        (hFCL_subtree_sublist pid cs ns h).mem (List.mem_cons_of_mem _ htidcs)
      have hcn : containsIdN tid n = false := by
        cases hc : containsIdN tid n
        · rfl
        · exact absurd ((mem_nodeIds_iff tid n).mpr hc) (fun h1 => hnd.2.2 h1 htns)
      have hni : n.id ≠ tid := by
        intro heq
        have hmem : tid ∈ nodeIds n := heq ▸ id_mem_nodeIds n
        rw [mem_nodeIds_iff, hcn] at hmem
        cases hmem
      obtain ⟨q, hq, hq2, hq3⟩ := ihl hnd.2.1 h p0
      refine ⟨q, ?_, hq2, hq3⟩
      rw [findParentNode_cons, if_neg hni, findParentChildren_none tid n hcn, hq]
  · intro nid nm ty ct fp ie ix _ h
    rw [hasFolderChildrenN] at h
    cases h
  · intro nid nm ty ct fp l2 ie ix ih hnd h
    rw [nodeIds_mk_some, List.nodup_cons] at hnd
    rw [hasFolderChildrenN] at h
    cases h with
    | inl h =>
      obtain ⟨h1, h2, h3⟩ := h
      subst h3
      refine ⟨FSNode.mk nid nm ty ct fp (some l2) ie ix, ?_,
        by rw [FSNode.id]; exact h1, by rw [FSNode.children]⟩
      rw [findParentChildren]
      exact findParentNode_found_at_root tid l2 hnd.2 y hy hyid _
    | inr h =>
      obtain ⟨q, hq, hq2, hq3⟩ := ih hnd.2 h
        (some (FSNode.mk nid nm ty ct fp (some l2) ie ix))
      refine ⟨q, ?_, hq2, hq3⟩
      rw [findParentChildren]
      exact hq

/-! ### The effect of `updateParent` and `insertNodeAtPosition` -/

/-- `updateParent` replaces the children of the (unique) folder with the
parent's id by the splice result. -/
theorem updateParent_updates (pid : String) (w : FSNode) (tid : String) (pos : Pos)
    (cs : List FSNode) :
    ∀ l : List FSNode, (allIdsL l).Nodup → hasFolderChildrenL pid cs l →
      hasFolderChildrenL pid (insertNodeAtPosition w tid pos cs)
        (updateParent pid w tid pos l) := by
  refine forestInd ?_ ?_ ?_ ?_
    (motive := fun n => (nodeIds n).Nodup → hasFolderChildrenN pid cs n →
      hasFolderChildrenN pid (insertNodeAtPosition w tid pos cs)
        (updateParentN pid w tid pos n))
  · intro _ h; cases h
  · intro n ns ihn ihl hnd h
    rw [allIdsL, List.nodup_append] at hnd
    rw [updateParent]
    cases h with
    | inl h => exact Or.inl (ihn hnd.1 h)
    | inr h => exact Or.inr (ihl hnd.2.1 h)
  · intro nid nm ty ct fp ie ix _ h
    rw [hasFolderChildrenN] at h
    cases h
  · intro nid nm ty ct fp l2 ie ix ih hnd h
    rw [nodeIds_mk_some, List.nodup_cons] at hnd
    rw [hasFolderChildrenN] at h
    cases h with
    | inl h =>
      obtain ⟨h1, h2, h3⟩ := h
      subst h3
      rw [updateParentN, if_pos h1, hasFolderChildrenN]
      exact Or.inl ⟨h1, h2, rfl⟩
    | inr h =>
      have hne : ¬ nid = pid := by
        intro heq
        exact hnd.1 (heq ▸ hFCL_pid_mem pid cs l2 h)
      rw [updateParentN, if_neg hne, hasFolderChildrenN]
      exact Or.inr (ih hnd.2 h)

/-- The splice step on the concrete sibling list `[X, Y, Z]` targeted at
`Y`: `before` gives `[X, w, Y, Z]`, `after` gives `[X, Y, w, Z]`. -/
theorem insertNodeAtPosition_XYZ (w X Y Z : FSNode) (hxy : X.id ≠ Y.id) :
    insertNodeAtPosition w Y.id Pos.before [X, Y, Z] = [X, w, Y, Z]
      ∧ insertNodeAtPosition w Y.id Pos.after [X, Y, Z] = [X, Y, w, Z] := by
  have hany : [X, Y, Z].any (fun n => n.id == Y.id) = true := by
    simp [List.any_cons]
  constructor <;>
  · rw [insertNodeAtPosition, hany]
    simp only [if_true]
    rw [insertHere, if_neg hxy, insertHere, if_pos rfl]

/-! ### Claim C5 -/

/-- Claim C5: in a tree with distinct ids, when some folder has the
sibling list `[X, Y, Z]` and the node `w` with id `wid` sits elsewhere
(not among the siblings' subtrees, and not an ancestor of the folder),
`moveNodeToPosition(wid, Y.id, before)` turns that sibling list into
`[X, w, Y, Z]` and `moveNodeToPosition(wid, Y.id, after)` turns it into
`[X, Y, w, Z]`. -/
theorem moveNodeToPosition_sibling_order
    (t : List FSNode) (wid pid : String) (w X Y Z : FSNode)
    (hnd : (allIdsL t).Nodup)
    (hw : findNodeById wid t = some w)
    (hP : hasFolderChildrenL pid [X, Y, Z] t)
    (hW1 : wid ∉ allIdsL [X, Y, Z])
    (hW2 : pid ∉ nodeIds w) :
    hasFolderChildrenL pid [X, w, Y, Z] (moveNodeToPosition wid Y.id Pos.before t)
      ∧ hasFolderChildrenL pid [X, Y, w, Z] (moveNodeToPosition wid Y.id Pos.after t) := by
  have hcs_nodup := subtree_nodup_of_hFC pid [X, Y, Z] t hnd hP
  rw [List.nodup_cons] at hcs_nodup
  have hxy : X.id ≠ Y.id := by
    have h2 := hcs_nodup.2
    rw [allIdsL, List.nodup_append] at h2
    intro heq
    exact h2.2.2 (id_mem_nodeIds X)
      (heq ▸ mem_allIdsL_of_mem Y [Y, Z] (List.mem_cons_self _ _))
  have hicsf : containsIdL wid [X, Y, Z] = false := by
    cases hc : containsIdL wid [X, Y, Z]
    · rfl
    · exact absurd ((mem_allIdsL_iff wid [X, Y, Z]).mpr hc) hW1
  have hocc : ∀ m, occursL m t → m.id = wid → pid ∉ nodeIds m := by
    intro m hm hmid
    have hwocc : occursL w t := findNodeById_occurs wid t w hw
    have hwid : w.id = wid := findNodeById_id wid t w hw
    have heq : m = w := occursL_unique t hnd m w hm hwocc (hmid.trans hwid.symm)
    exact heq ▸ hW2
  have hP' : hasFolderChildrenL pid [X, Y, Z] (removeNodeFromTree wid t) :=
    hFC_remove wid pid [X, Y, Z] hicsf t hP hocc
  have hnd' : (allIdsL (removeNodeFromTree wid t)).Nodup :=
    (allIdsL_removeNodeFromTree_sublist wid t).nodup hnd
  obtain ⟨q, hq, hqid, _⟩ := findParentNode_locates Y.id pid [X, Y, Z] Y
    (List.mem_cons_of_mem X (List.mem_cons_self Y [Z])) rfl
    (removeNodeFromTree wid t) hnd' hP' none
  have hrun : ∀ pos : Pos, moveNodeToPosition wid Y.id pos t
      = updateParent pid w Y.id pos (removeNodeFromTree wid t) := by
    intro pos
    rw [moveNodeToPosition, hw]
    show (match findParentNode Y.id (removeNodeFromTree wid t) none with
          | some p => updateParent p.id w Y.id pos (removeNodeFromTree wid t)
          | none => insertNodeAtPosition w Y.id pos (removeNodeFromTree wid t))
        = updateParent pid w Y.id pos (removeNodeFromTree wid t)
    rw [hq]
    show updateParent q.id w Y.id pos (removeNodeFromTree wid t)
        = updateParent pid w Y.id pos (removeNodeFromTree wid t)
    rw [hqid]
  have hins := insertNodeAtPosition_XYZ w X Y Z hxy
  constructor
  · rw [hrun Pos.before]
    have hres := updateParent_updates pid w Y.id Pos.before [X, Y, Z]
      (removeNodeFromTree wid t) hnd' hP'
    rwa [hins.1] at hres
  · rw [hrun Pos.after]
    have hres := updateParent_updates pid w Y.id Pos.after [X, Y, Z]
      (removeNodeFromTree wid t) hnd' hP'
    rwa [hins.2] at hres

/-- Witness for C5 on the concrete forest `[P[X, Y, Z], W]`. -/
theorem moveNodeToPosition_sibling_order_witness :
    ((allIdsL [FSNode.mk "P" "P" .folder none none
        (some [.mk "X" "X" .file none none none none none,
               .mk "Y" "Y" .file none none none none none,
               .mk "Z" "Z" .file none none none none none]) none none,
      FSNode.mk "W" "W" .file none none none none none]).Nodup
      ∧ hasFolderChildrenL "P"
          [.mk "X" "X" .file none none none none none,
           .mk "Y" "Y" .file none none none none none,
           .mk "Z" "Z" .file none none none none none]
          [FSNode.mk "P" "P" .folder none none
            (some [.mk "X" "X" .file none none none none none,
                   .mk "Y" "Y" .file none none none none none,
                   .mk "Z" "Z" .file none none none none none]) none none,
           FSNode.mk "W" "W" .file none none none none none])
      ∧ hasFolderChildrenL "P"
          [.mk "X" "X" .file none none none none none,
           .mk "W" "W" .file none none none none none,
           .mk "Y" "Y" .file none none none none none,
           .mk "Z" "Z" .file none none none none none]
          (moveNodeToPosition "W" "Y" Pos.before
            [FSNode.mk "P" "P" .folder none none
              (some [.mk "X" "X" .file none none none none none,
                     .mk "Y" "Y" .file none none none none none,
                     .mk "Z" "Z" .file none none none none none]) none none,
             FSNode.mk "W" "W" .file none none none none none])
      ∧ moveNodeToPosition "W" "Y" Pos.after
          [FSNode.mk "P" "P" .folder none none
            (some [.mk "X" "X" .file none none none none none,
                   .mk "Y" "Y" .file none none none none none,
                   .mk "Z" "Z" .file none none none none none]) none none,
           FSNode.mk "W" "W" .file none none none none none]
        = [FSNode.mk "P" "P" .folder none none
            (some [.mk "X" "X" .file none none none none none,
                   .mk "Y" "Y" .file none none none none none,
                   .mk "W" "W" .file none none none none none,
                   .mk "Z" "Z" .file none none none none none]) none none] := by
  have h := moveNodeToPosition_sibling_order
    [FSNode.mk "P" "P" .folder none none
      (some [.mk "X" "X" .file none none none none none,
             .mk "Y" "Y" .file none none none none none,
             .mk "Z" "Z" .file none none none none none]) none none,
     FSNode.mk "W" "W" .file none none none none none]
    "W" "P" (FSNode.mk "W" "W" .file none none none none none)
    (.mk "X" "X" .file none none none none none)
    (.mk "Y" "Y" .file none none none none none)
    (.mk "Z" "Z" .file none none none none none)
    (by decide) rfl (Or.inl (Or.inl ⟨rfl, rfl, rfl⟩)) (by decide) (by decide)
  exact ⟨⟨by decide, Or.inl (Or.inl ⟨rfl, rfl, rfl⟩)⟩, h.1, by rfl⟩

/-! ### Claim C10: machinery for relative sibling order

`OPE S old new` states that the nodes present in both the old and the new
sibling list and not explicitly touched by the mutation (ids in `S`)
appear in the same relative order: restricting either id sequence to the
common untouched ids yields the same sequence. -/

/-- The id sequence of one sibling list (one level only). -/
def rootIds (l : List FSNode) : List String :=
  l.map FSNode.id

/-- Order preservation of the ids common to `old` and `new`, ignoring the
explicitly touched ids `S`. -/
def OPE (S old new : List String) : Prop :=
  new.filter (fun j => decide (j ∈ old) && !(decide (j ∈ S)))
    = old.filter (fun j => decide (j ∈ new) && !(decide (j ∈ S)))

theorem filter_mem_of_sublist {c a : List String} (h : c.Sublist a) (hnd : a.Nodup) :
    a.filter (fun j => decide (j ∈ c)) = c := by
  induction h with
  | slnil => rfl
  | @cons c as x h ih =>
    rw [List.nodup_cons] at hnd
    rw [List.filter_cons]
    have hx : decide (x ∈ c) = false := by
      cases hc : decide (x ∈ c)
      · rfl
      · rw [decide_eq_true_eq] at hc
        exact absurd (h.mem hc) hnd.1
    rw [hx]
    simp only [Bool.false_eq_true, if_false]
    exact ih hnd.2
  | @cons₂ c as x h ih =>
    rw [List.nodup_cons] at hnd
    rw [List.filter_cons]
    have hx : decide (x ∈ x :: c) = true := by
      rw [decide_eq_true_eq]
      exact List.mem_cons_self _ _
    rw [hx]
    simp only [if_true]
    have hcong : as.filter (fun j => decide (j ∈ x :: c))
        = as.filter (fun j => decide (j ∈ c)) := by
      apply List.filter_congr
      intro j hj
      have hjx : j ≠ x := fun heq => hnd.1 (heq ▸ hj)
      simp [List.mem_cons, hjx]
    rw [hcong, ih hnd.2]

/-- The master order-preservation step: if the new id sequence is obtained
from a sublist `c` of the (duplicate-free) old sequence by appending or
inserting only touched ids, the untouched common order is preserved. -/
theorem OPE_step (S a : List String) (hnd : a.Nodup) :
    ∀ b c : List String, c.Sublist a →
      (b = c
        ∨ (∃ extra, b = c ++ extra ∧ ∀ j ∈ extra, j ∈ S)
        ∨ (∃ x y wid, c = x ++ y ∧ b = x ++ wid :: y ∧ wid ∈ S)) →
      OPE S a b := by
  have key : ∀ c : List String, c.Sublist a →
      ∀ b : List String,
        (b.filter (fun j => !(decide (j ∈ S))) = c.filter (fun j => !(decide (j ∈ S))))
        → (∀ j, (j ∈ b ∧ ¬ j ∈ S) ↔ (j ∈ c ∧ ¬ j ∈ S))
        → OPE S a b := by
    intro c hsub b hfilt hmem
    rw [OPE]
    have hL : b.filter (fun j => decide (j ∈ a) && !(decide (j ∈ S)))
        = b.filter (fun j => !(decide (j ∈ S))) := by
      apply List.filter_congr
      intro j hj
      cases hS : decide (j ∈ S)
      · have hSm : ¬ j ∈ S := by
          rw [← decide_eq_true_eq (p := j ∈ S), hS]
          exact Bool.false_ne_true
        have hjc : j ∈ c := ((hmem j).mp ⟨hj, hSm⟩).1
        have hja : decide (j ∈ a) = true := by
          rw [decide_eq_true_eq]
          exact hsub.mem hjc
        simp [hja]
      · simp [hS]
    have hR : a.filter (fun j => decide (j ∈ b) && !(decide (j ∈ S)))
        = a.filter (fun j => decide (j ∈ c) && !(decide (j ∈ S))) := by
      apply List.filter_congr
      intro j _
      cases hS : decide (j ∈ S)
      · have hSm : ¬ j ∈ S := by
          rw [← decide_eq_true_eq (p := j ∈ S), hS]
          exact Bool.false_ne_true
        have hbc : j ∈ b ↔ j ∈ c := by
          constructor
          · intro h; exact ((hmem j).mp ⟨h, hSm⟩).1
          · intro h; exact ((hmem j).mpr ⟨h, hSm⟩).1
        simp [hbc]
      · simp [hS]
    rw [hL, hR]
    have hR2 : a.filter (fun j => decide (j ∈ c) && !(decide (j ∈ S)))
        = (a.filter (fun j => decide (j ∈ c))).filter (fun j => !(decide (j ∈ S))) := by
      rw [List.filter_filter]
      apply List.filter_congr
      intro j _
      rw [Bool.and_comm]
    rw [hR2, filter_mem_of_sublist hsub hnd, hfilt]
  intro b c hsub hcase
  cases hcase with
  | inl h =>
    subst h
    exact key b hsub b rfl (fun j => Iff.rfl)
  | inr h =>
    cases h with
    | inl h =>
      obtain ⟨extra, hb, hex⟩ := h
      subst hb
      apply key c hsub
      · rw [List.filter_append]
        have hnil : extra.filter (fun j => !(decide (j ∈ S))) = [] := by
          rw [List.filter_eq_nil_iff]
          intro j hj
          simp [hex j hj]
        rw [hnil, List.append_nil]
      · intro j
        constructor
        · rintro ⟨hj, hS⟩
          rw [List.mem_append] at hj
          cases hj with
          | inl hj => exact ⟨hj, hS⟩
          | inr hj => exact absurd (hex j hj) hS
        · rintro ⟨hj, hS⟩
          exact ⟨List.mem_append.mpr (Or.inl hj), hS⟩
    | inr h =>
      obtain ⟨x, y, wid, hc, hb, hwid⟩ := h
      subst hc; subst hb
      apply key (x ++ y) hsub
      · rw [List.filter_append, List.filter_append, List.filter_cons]
        have hw : (!(decide (wid ∈ S))) = false := by
          simp [hwid]
        rw [hw]
        simp only [Bool.false_eq_true, if_false]
      · intro j
        constructor
        · rintro ⟨hj, hS⟩
          rw [List.mem_append, List.mem_cons] at hj
          rcases hj with hj | hj | hj
          · exact ⟨List.mem_append.mpr (Or.inl hj), hS⟩
          · exact absurd (hj ▸ hwid) hS
          · exact ⟨List.mem_append.mpr (Or.inr hj), hS⟩
        · rintro ⟨hj, hS⟩
          rw [List.mem_append] at hj
          cases hj with
          | inl hj => exact ⟨by rw [List.mem_append]; exact Or.inl hj, hS⟩
          | inr hj => exact ⟨by rw [List.mem_append, List.mem_cons]; exact Or.inr (Or.inr hj), hS⟩

theorem OPE_refl (S a : List String) (hnd : a.Nodup) : OPE S a a :=
  OPE_step S a hnd a a (List.Sublist.refl a) (Or.inl rfl)

/-! ### Effect of each operation on root-level id sequences -/

theorem allIdsL_append (a b : List FSNode) :
    allIdsL (a ++ b) = allIdsL a ++ allIdsL b := by
  induction a with
  | nil => rfl
  | cons n ns ih => rw [List.cons_append, allIdsL, allIdsL, ih, List.append_assoc]

theorem updateNodeNameN_id (i nm : String) (n : FSNode) :
    (updateNodeNameN i nm n).id = n.id := by
  cases n with
  | mk nid n0 ty ct fp ch ie ix =>
    cases ch <;> rw [updateNodeNameN] <;> by_cases h : nid = i <;> simp [h, FSNode.id]

theorem setNodeEditingN_id (i : String) (b : Bool) (n : FSNode) :
    (setNodeEditingN i b n).id = n.id := by
  cases n with
  | mk nid n0 ty ct fp ch ie ix =>
    cases ch <;> rw [setNodeEditingN] <;> by_cases h : nid = i <;> simp [h, FSNode.id]

theorem setNodeExpandedN_id (i : String) (b : Bool) (n : FSNode) :
    (setNodeExpandedN i b n).id = n.id := by
  cases n with
  | mk nid n0 ty ct fp ch ie ix =>
    cases ch <;> rw [setNodeExpandedN] <;> by_cases h : nid = i <;> simp [h, FSNode.id]

theorem updateFileContentN_id (np c : String) (n : FSNode) :
    (updateFileContentN np c n).id = n.id := by
  cases n with
  | mk nid n0 ty ct fp ch ie ix =>
    cases ch with
    | none =>
      rw [updateFileContentN]
      by_cases h : matchesPath np (FSNode.mk nid n0 ty ct fp none ie ix) <;>
        simp [h, FSNode.id]
    | some cs =>
      rw [updateFileContentN]
      by_cases h : matchesPath np (FSNode.mk nid n0 ty ct fp (some cs) ie ix) <;>
        simp [h, FSNode.id]

theorem addNodeToFolderN_id (w : FSNode) (f : String) (n : FSNode) :
    (addNodeToFolderN w f n).id = n.id := by
  cases n with
  | mk nid n0 ty ct fp ch ie ix =>
    rw [addNodeToFolderN.eq_def]
    by_cases h : nid = f ∧ ty = NodeType.folder
    · simp [h, FSNode.id]
    · cases ch <;> simp [h, FSNode.id]

theorem insertDeepN_id (w : FSNode) (tid : String) (pos : Pos) (n : FSNode) :
    (insertDeepN w tid pos n).id = n.id := by
  cases n with
  | mk nid n0 ty ct fp ch ie ix =>
    cases ch with
    | none => rw [insertDeepN]
    | some cs => rw [insertDeepN, FSNode.id, FSNode.id]

theorem updateParentN_id (qid : String) (w : FSNode) (tid : String) (pos : Pos) (n : FSNode) :
    (updateParentN qid w tid pos n).id = n.id := by
  cases n with
  | mk nid n0 ty ct fp ch ie ix =>
    cases ch with
    | none => rw [updateParentN]
    | some cs =>
      rw [updateParentN]
      by_cases h : nid = qid <;> simp [h, FSNode.id]

theorem removeChildren_id (i : String) (n : FSNode) :
    (removeChildren i n).id = n.id := by
  cases n with
  | mk nid n0 ty ct fp ch ie ix =>
    cases ch with
    | none => rw [removeChildren_mk_none]
    | some cs => rw [removeChildren_mk_some, FSNode.id, FSNode.id]

theorem rootIds_updateNodeName (i nm : String) (l : List FSNode) :
    rootIds (updateNodeName i nm l) = rootIds l := by
  induction l with
  | nil => rfl
  | cons n ns ih =>
    show (updateNodeNameN i nm n).id :: rootIds (updateNodeName i nm ns) = n.id :: rootIds ns
    rw [updateNodeNameN_id, ih]

theorem rootIds_setNodeEditing (i : String) (b : Bool) (l : List FSNode) :
    rootIds (setNodeEditing i b l) = rootIds l := by
  induction l with
  | nil => rfl
  | cons n ns ih =>
    show (setNodeEditingN i b n).id :: rootIds (setNodeEditing i b ns) = n.id :: rootIds ns
    rw [setNodeEditingN_id, ih]

theorem rootIds_setNodeExpanded (i : String) (b : Bool) (l : List FSNode) :
    rootIds (setNodeExpanded i b l) = rootIds l := by
  induction l with
  | nil => rfl
  | cons n ns ih =>
    show (setNodeExpandedN i b n).id :: rootIds (setNodeExpanded i b ns) = n.id :: rootIds ns
    rw [setNodeExpandedN_id, ih]

theorem rootIds_updateFileContentGo (np c : String) (l : List FSNode) :
    rootIds (updateFileContentGo np c l) = rootIds l := by
  induction l with
  | nil => rfl
  | cons n ns ih =>
    show (updateFileContentN np c n).id :: rootIds (updateFileContentGo np c ns) = n.id :: rootIds ns
    rw [updateFileContentN_id, ih]

theorem rootIds_addNodeToFolderGo (w : FSNode) (f : String) (l : List FSNode) :
    rootIds (addNodeToFolderGo w f l) = rootIds l := by
  induction l with
  | nil => rfl
  | cons n ns ih =>
    show (addNodeToFolderN w f n).id :: rootIds (addNodeToFolderGo w f ns) = n.id :: rootIds ns
    rw [addNodeToFolderN_id, ih]

theorem rootIds_insertDeep (w : FSNode) (tid : String) (pos : Pos) (l : List FSNode) :
    rootIds (insertDeep w tid pos l) = rootIds l := by
  induction l with
  | nil => rfl
  | cons n ns ih =>
    show (insertDeepN w tid pos n).id :: rootIds (insertDeep w tid pos ns) = n.id :: rootIds ns
    rw [insertDeepN_id, ih]

theorem rootIds_updateParent (qid : String) (w : FSNode) (tid : String) (pos : Pos) (l : List FSNode) :
    rootIds (updateParent qid w tid pos l) = rootIds l := by
  induction l with
  | nil => rfl
  | cons n ns ih =>
    show (updateParentN qid w tid pos n).id :: rootIds (updateParent qid w tid pos ns) = n.id :: rootIds ns
    rw [updateParentN_id, ih]

theorem rootIds_removeNodeFromTree (i : String) (l : List FSNode) :
    rootIds (removeNodeFromTree i l) = (rootIds l).filter (fun j => !(decide (j = i))) := by
  induction l with
  | nil => rfl
  | cons n ns ih =>
    by_cases h : n.id = i
    · rw [removeNodeFromTree_cons_pos _ _ _ h]
      show rootIds (removeNodeFromTree i ns) = List.filter _ (n.id :: rootIds ns)
      rw [List.filter_cons]
      simp [h, ih]
    · rw [removeNodeFromTree_cons_neg _ _ _ h]
      show (removeChildren i n).id :: rootIds (removeNodeFromTree i ns)
        = List.filter _ (n.id :: rootIds ns)
      rw [List.filter_cons, removeChildren_id]
      simp [h, ih]

theorem rootIds_filter_sublist (i : String) (l : List FSNode) :
    (rootIds (removeNodeFromTree i l)).Sublist (rootIds l) := by
  rw [rootIds_removeNodeFromTree]
  exact List.filter_sublist _

/-! ### Monotonicity of folder occurrence -/

theorem hFC_append_left (pid : String) (cs : List FSNode) (l l2 : List FSNode)
    (h : hasFolderChildrenL pid cs l) : hasFolderChildrenL pid cs (l ++ l2) := by
  induction l with
  | nil => cases h
  | cons n ns ih =>
    cases h with
    | inl h => exact Or.inl h
    | inr h => exact Or.inr (ih h)

theorem hFC_append_right (pid : String) (cs : List FSNode) (l l2 : List FSNode)
    (h : hasFolderChildrenL pid cs l2) : hasFolderChildrenL pid cs (l ++ l2) := by
  induction l with
  | nil => exact h
  | cons n ns ih => exact Or.inr ih

/-! ### Forward transport of folder occurrences through each operation -/

theorem hFC_updateNodeName (i nm pid : String) (cs : List FSNode) :
    ∀ l : List FSNode, hasFolderChildrenL pid cs l →
      ∃ cs', hasFolderChildrenL pid cs' (updateNodeName i nm l)
        ∧ rootIds cs' = rootIds cs := by
  refine forestInd ?_ ?_ ?_ ?_
    (motive := fun n => hasFolderChildrenN pid cs n →
      ∃ cs', hasFolderChildrenN pid cs' (updateNodeNameN i nm n)
        ∧ rootIds cs' = rootIds cs)
  · intro h; cases h
  · intro n ns ihn ihl h
    rw [updateNodeName]
    cases h with
    | inl h =>
      obtain ⟨cs', h1, h2⟩ := ihn h
      exact ⟨cs', Or.inl h1, h2⟩
    | inr h =>
      obtain ⟨cs', h1, h2⟩ := ihl h
      exact ⟨cs', Or.inr h1, h2⟩
  · intro nid n0 ty ct fp ie ix h
    rw [hasFolderChildrenN] at h
    cases h
  · intro nid n0 ty ct fp l2 ie ix ih h
    rw [hasFolderChildrenN] at h
    rw [updateNodeNameN]
    by_cases hni : nid = i
    · rw [if_pos hni]
      cases h with
      | inl h => exact ⟨cs, Or.inl h, rfl⟩
      | inr h => exact ⟨cs, Or.inr h, rfl⟩
    · rw [if_neg hni]
      cases h with
      | inl h =>
        obtain ⟨h1, h2, h3⟩ := h
        exact ⟨updateNodeName i nm cs, Or.inl ⟨h1, h2, by rw [h3]⟩,
          rootIds_updateNodeName i nm cs⟩
      | inr h =>
        obtain ⟨cs', h1, h2⟩ := ih h
        exact ⟨cs', Or.inr h1, h2⟩

theorem hFC_setNodeEditing (i : String) (b : Bool) (pid : String) (cs : List FSNode) :
    ∀ l : List FSNode, hasFolderChildrenL pid cs l →
      ∃ cs', hasFolderChildrenL pid cs' (setNodeEditing i b l)
        ∧ rootIds cs' = rootIds cs := by
  refine forestInd ?_ ?_ ?_ ?_
    (motive := fun n => hasFolderChildrenN pid cs n →
      ∃ cs', hasFolderChildrenN pid cs' (setNodeEditingN i b n)
        ∧ rootIds cs' = rootIds cs)
  · intro h; cases h
  · intro n ns ihn ihl h
    rw [setNodeEditing]
    cases h with
    | inl h =>
      obtain ⟨cs', h1, h2⟩ := ihn h
      exact ⟨cs', Or.inl h1, h2⟩
    | inr h =>
      obtain ⟨cs', h1, h2⟩ := ihl h
      exact ⟨cs', Or.inr h1, h2⟩
  · intro nid n0 ty ct fp ie ix h
    rw [hasFolderChildrenN] at h
    cases h
  · intro nid n0 ty ct fp l2 ie ix ih h
    rw [hasFolderChildrenN] at h
    rw [setNodeEditingN]
    by_cases hni : nid = i
    · rw [if_pos hni]
      cases h with
      | inl h => exact ⟨cs, Or.inl h, rfl⟩
      | inr h => exact ⟨cs, Or.inr h, rfl⟩
    · rw [if_neg hni]
      cases h with
      | inl h =>
        obtain ⟨h1, h2, h3⟩ := h
        exact ⟨setNodeEditing i b cs, Or.inl ⟨h1, h2, by rw [h3]⟩,
          rootIds_setNodeEditing i b cs⟩
      | inr h =>
        obtain ⟨cs', h1, h2⟩ := ih h
        exact ⟨cs', Or.inr h1, h2⟩

theorem hFC_setNodeExpanded (i : String) (b : Bool) (pid : String) (cs : List FSNode) :
    ∀ l : List FSNode, hasFolderChildrenL pid cs l →
      ∃ cs', hasFolderChildrenL pid cs' (setNodeExpanded i b l)
        ∧ rootIds cs' = rootIds cs := by
  refine forestInd ?_ ?_ ?_ ?_
    (motive := fun n => hasFolderChildrenN pid cs n →
      ∃ cs', hasFolderChildrenN pid cs' (setNodeExpandedN i b n)
        ∧ rootIds cs' = rootIds cs)
  · intro h; cases h
  · intro n ns ihn ihl h
    rw [setNodeExpanded]
    cases h with
    | inl h =>
      obtain ⟨cs', h1, h2⟩ := ihn h
      exact ⟨cs', Or.inl h1, h2⟩
    | inr h =>
      obtain ⟨cs', h1, h2⟩ := ihl h
      exact ⟨cs', Or.inr h1, h2⟩
  · intro nid n0 ty ct fp ie ix h
    rw [hasFolderChildrenN] at h
    cases h
  · intro nid n0 ty ct fp l2 ie ix ih h
    rw [hasFolderChildrenN] at h
    rw [setNodeExpandedN]
    by_cases hni : nid = i
    · rw [if_pos hni]
      cases h with
      | inl h => exact ⟨cs, Or.inl h, rfl⟩
      | inr h => exact ⟨cs, Or.inr h, rfl⟩
    · rw [if_neg hni]
      cases h with
      | inl h =>
        obtain ⟨h1, h2, h3⟩ := h
        exact ⟨setNodeExpanded i b cs, Or.inl ⟨h1, h2, by rw [h3]⟩,
          rootIds_setNodeExpanded i b cs⟩
      | inr h =>
        obtain ⟨cs', h1, h2⟩ := ih h
        exact ⟨cs', Or.inr h1, h2⟩

theorem hFC_updateFileContentGo (np c pid : String) (cs : List FSNode) :
    ∀ l : List FSNode, hasFolderChildrenL pid cs l →
      ∃ cs', hasFolderChildrenL pid cs' (updateFileContentGo np c l)
        ∧ rootIds cs' = rootIds cs := by
  refine forestInd ?_ ?_ ?_ ?_
    (motive := fun n => hasFolderChildrenN pid cs n →
      ∃ cs', hasFolderChildrenN pid cs' (updateFileContentN np c n)
        ∧ rootIds cs' = rootIds cs)
  · intro h; cases h
  · intro n ns ihn ihl h
    rw [updateFileContentGo]
    cases h with
    | inl h =>
      obtain ⟨cs', h1, h2⟩ := ihn h
      exact ⟨cs', Or.inl h1, h2⟩
    | inr h =>
      obtain ⟨cs', h1, h2⟩ := ihl h
      exact ⟨cs', Or.inr h1, h2⟩
  · intro nid n0 ty ct fp ie ix h
    rw [hasFolderChildrenN] at h
    cases h
  · intro nid n0 ty ct fp l2 ie ix ih h
    rw [hasFolderChildrenN] at h
    rw [updateFileContentN]
    by_cases hni : matchesPath np (FSNode.mk nid n0 ty ct fp (some l2) ie ix)
    · rw [if_pos hni]
      cases h with
      | inl h => exact ⟨cs, Or.inl h, rfl⟩
      | inr h => exact ⟨cs, Or.inr h, rfl⟩
    · rw [if_neg hni]
      cases h with
      | inl h =>
        obtain ⟨h1, h2, h3⟩ := h
        exact ⟨updateFileContentGo np c cs, Or.inl ⟨h1, h2, by rw [h3]⟩,
          rootIds_updateFileContentGo np c cs⟩
      | inr h =>
        obtain ⟨cs', h1, h2⟩ := ih h
        exact ⟨cs', Or.inr h1, h2⟩

theorem nodeIds_removeChildren_sublist (i : String) (n : FSNode) :
    (nodeIds (removeChildren i n)).Sublist (nodeIds n) := by
  cases n with
  | mk nid nm ty ct fp ch ie ix =>
    cases ch with
    | none => rw [removeChildren_mk_none]
    | some cs =>
      rw [removeChildren_mk_some, nodeIds_mk_some, nodeIds_mk_some]
      exact (allIdsL_removeNodeFromTree_sublist i cs).cons₂ nid

theorem hFC_remove_forward (i pid : String) (cs : List FSNode) :
    ∀ l : List FSNode, (allIdsL l).Nodup → hasFolderChildrenL pid cs l →
      containsIdL pid (removeNodeFromTree i l) = true →
      hasFolderChildrenL pid (removeNodeFromTree i cs) (removeNodeFromTree i l) := by
  refine forestInd ?_ ?_ ?_ ?_
    (motive := fun n => (nodeIds n).Nodup → hasFolderChildrenN pid cs n → ¬ n.id = i →
      containsIdN pid (removeChildren i n) = true →
      hasFolderChildrenN pid (removeNodeFromTree i cs) (removeChildren i n))
  · intro _ h; cases h
  · intro n ns ihn ihl hnd h hc
    rw [allIdsL, List.nodup_append] at hnd
    by_cases hni : n.id = i
    · rw [removeNodeFromTree_cons_pos _ _ _ hni] at hc ⊢
      cases h with
      | inl h =>
        exfalso
        have h1 : pid ∈ nodeIds n := hFCN_pid_mem pid cs n h
        have h2 : pid ∈ allIdsL ns :=
          (allIdsL_removeNodeFromTree_sublist i ns).mem ((mem_allIdsL_iff pid _).mpr hc)
        exact hnd.2.2 h1 h2
      | inr h => exact ihl hnd.2.1 h hc
    · rw [removeNodeFromTree_cons_neg _ _ _ hni] at hc ⊢
      rw [containsIdL, Bool.or_eq_true] at hc
      cases h with
      | inl h =>
        have hcn : containsIdN pid (removeChildren i n) = true := by
          cases hc with
          | inl hc => exact hc
          | inr hc =>
            exfalso
            have h1 : pid ∈ nodeIds n := hFCN_pid_mem pid cs n h
            have h2 : pid ∈ allIdsL ns :=
              (allIdsL_removeNodeFromTree_sublist i ns).mem ((mem_allIdsL_iff pid _).mpr hc)
            exact hnd.2.2 h1 h2
        exact Or.inl (ihn hnd.1 h hni hcn)
      | inr h =>
        cases hc with
        | inl hc =>
          exfalso
          have h1 : pid ∈ nodeIds n :=
            (nodeIds_removeChildren_sublist i n).mem ((mem_nodeIds_iff pid _).mpr hc)
          have h2 : pid ∈ allIdsL ns := hFCL_pid_mem pid cs ns h
          exact hnd.2.2 h1 h2
        | inr hc => exact Or.inr (ihl hnd.2.1 h hc)
  · intro nid nm ty ct fp ie ix _ h
    rw [hasFolderChildrenN] at h
    cases h
  · intro nid nm ty ct fp l2 ie ix ih hnd h hni hc
    rw [nodeIds_mk_some, List.nodup_cons] at hnd
    rw [hasFolderChildrenN] at h
    rw [removeChildren_mk_some, hasFolderChildrenN]
    cases h with
    | inl h =>
      obtain ⟨h1, h2, h3⟩ := h
      exact Or.inl ⟨h1, h2, by rw [h3]⟩
    | inr h =>
      have hnp : ¬ nid = pid := by
        intro heq
        exact hnd.1 (heq ▸ hFCL_pid_mem pid cs l2 h)
      have hc2 : containsIdL pid (removeNodeFromTree i l2) = true := by
        rw [removeChildren_mk_some, containsIdN, Bool.or_eq_true] at hc
        cases hc with
        | inl hc =>
          rw [decide_eq_true_eq] at hc
          exact absurd hc hnp
        | inr hc => exact hc
      exact Or.inr (ih hnd.2 h hc2)

theorem contains_deleteNodes_mono (ids : List String) (p : String) :
    ∀ t : List FSNode, containsIdL p (deleteNodes ids t) = true →
      containsIdL p t = true := by
  induction ids with
  | nil => intro t h; exact h
  | cons j ids ih =>
    intro t h
    rw [deleteNodes_cons] at h
    exact containsIdL_of_remove j p t (ih _ h)

theorem rootIds_deleteNodes_sublist (ids : List String) :
    ∀ t : List FSNode, (rootIds (deleteNodes ids t)).Sublist (rootIds t) := by
  induction ids with
  | nil => intro t; exact List.Sublist.refl _
  | cons j ids ih =>
    intro t
    rw [deleteNodes_cons]
    exact (ih _).trans (rootIds_filter_sublist j t)

theorem hFC_deleteNodes_forward (ids : List String) (pid : String) :
    ∀ t cs, (allIdsL t).Nodup → hasFolderChildrenL pid cs t →
      containsIdL pid (deleteNodes ids t) = true →
      ∃ cs', hasFolderChildrenL pid cs' (deleteNodes ids t)
        ∧ (rootIds cs').Sublist (rootIds cs) := by
  induction ids with
  | nil =>
    intro t cs _ h _
    exact ⟨cs, h, List.Sublist.refl _⟩
  | cons j ids ih =>
    intro t cs hnd h hc
    rw [deleteNodes_cons] at hc ⊢
    have hcint : containsIdL pid (removeNodeFromTree j t) = true := by
      exact contains_deleteNodes_mono ids pid _ hc
    have hstep := hFC_remove_forward j pid cs t hnd h hcint
    obtain ⟨cs', h1, h2⟩ := ih (removeNodeFromTree j t) (removeNodeFromTree j cs)
      ((allIdsL_removeNodeFromTree_sublist j t).nodup hnd) hstep hc
    exact ⟨cs', h1, h2.trans (rootIds_filter_sublist j cs)⟩

/-! ### Root-level id sequences, uniqueness and localization of folder
occurrences -/

theorem rootIds_append (a b : List FSNode) :
    rootIds (a ++ b) = rootIds a ++ rootIds b :=
  List.map_append _ _ _

theorem rootIds_sublist_allIdsL : ∀ l : List FSNode, (rootIds l).Sublist (allIdsL l) := by
  intro l
  induction l with
  | nil => exact List.Sublist.refl _
  | cons n ns ih =>
    cases n with
    | mk nid nm ty ct fp ch ie ix =>
      cases ch with
      | none =>
        rw [show rootIds (FSNode.mk nid nm ty ct fp none ie ix :: ns)
            = nid :: rootIds ns from rfl]
        rw [allIdsL, nodeIds_mk_none]
        exact ih.cons₂ nid
      | some cs =>
        rw [show rootIds (FSNode.mk nid nm ty ct fp (some cs) ie ix :: ns)
            = nid :: rootIds ns from rfl]
        rw [allIdsL, nodeIds_mk_some, List.cons_append]
        exact (ih.trans (List.sublist_append_right _ _)).cons₂ nid

/-- Under the unique-id invariant there is at most one folder occurrence
with a given id, so its children list is determined. -/
theorem hFC_unique (pid : String) :
    ∀ l : List FSNode, (allIdsL l).Nodup →
      ∀ cs cs', hasFolderChildrenL pid cs l → hasFolderChildrenL pid cs' l → cs = cs' := by
  refine forestInd ?_ ?_ ?_ ?_
    (motive := fun n => (nodeIds n).Nodup →
      ∀ cs cs', hasFolderChildrenN pid cs n → hasFolderChildrenN pid cs' n → cs = cs')
  · intro _ cs cs' h _; cases h
  · intro n ns ihn ihl hnd cs cs' h h'
    rw [allIdsL, List.nodup_append] at hnd
    cases h with
    | inl h =>
      cases h' with
      | inl h' => exact ihn hnd.1 cs cs' h h'
      | inr h' =>
        exact absurd (hFCL_pid_mem pid cs' ns h')
          (fun h2 => hnd.2.2 (hFCN_pid_mem pid cs n h) h2)
    | inr h =>
      cases h' with
      | inl h' =>
        exact absurd (hFCL_pid_mem pid cs ns h)
          (fun h2 => hnd.2.2 (hFCN_pid_mem pid cs' n h') h2)
      | inr h' => exact ihl hnd.2.1 cs cs' h h'
  · intro nid nm ty ct fp ie ix _ cs cs' h _
    rw [hasFolderChildrenN] at h
    cases h
  · intro nid nm ty ct fp l2 ie ix ih hnd cs cs' h h'
    rw [nodeIds_mk_some, List.nodup_cons] at hnd
    rw [hasFolderChildrenN] at h h'
    cases h with
    | inl h =>
      cases h' with
      | inl h' => rw [← h.2.2, ← h'.2.2]
      | inr h' =>
        exfalso
        apply hnd.1
        rw [h.1]
        exact hFCL_pid_mem pid cs' l2 h'
    | inr h =>
      cases h' with
      | inl h' =>
        exfalso
        apply hnd.1
        rw [h'.1]
        exact hFCL_pid_mem pid cs l2 h
      | inr h' => exact ih hnd.2 cs cs' h h'

theorem hFCN_unique (pid : String) (w : FSNode) (hnd : (nodeIds w).Nodup)
    (cs cs' : List FSNode) (h : hasFolderChildrenN pid cs w)
    (h' : hasFolderChildrenN pid cs' w) : cs = cs' := by
  have hnd2 : (allIdsL [w]).Nodup := by
    rw [allIdsL, allIdsL, List.append_nil]; exact hnd
  exact hFC_unique pid [w] hnd2 cs cs' (Or.inl h) (Or.inl h')

/-- Under the unique-id invariant, a folder occurrence whose id lies in the
subtree of an occurring node `w` is an occurrence inside `w`. -/
theorem hFC_localize (pid : String) (cs : List FSNode) (w : FSNode) :
    ∀ l : List FSNode, (allIdsL l).Nodup → hasFolderChildrenL pid cs l →
      occursL w l → pid ∈ nodeIds w → hasFolderChildrenN pid cs w := by
  refine forestInd ?_ ?_ ?_ ?_
    (motive := fun n => (nodeIds n).Nodup → hasFolderChildrenN pid cs n →
      occursN w n → pid ∈ nodeIds w → hasFolderChildrenN pid cs w)
  · intro _ h; cases h
  · intro n ns ihn ihl hnd h ho hpw
    rw [allIdsL, List.nodup_append] at hnd
    cases h with
    | inl h =>
      cases ho with
      | inl ho => exact ihn hnd.1 h ho hpw
      | inr ho =>
        exact absurd ((occursL_nodeIds_sublist w ns ho).mem hpw)
          (fun h2 => hnd.2.2 (hFCN_pid_mem pid cs n h) h2)
    | inr h =>
      cases ho with
      | inl ho =>
        exact absurd (hFCL_pid_mem pid cs ns h)
          (fun h2 => hnd.2.2 ((occursN_nodeIds_sublist w n ho).mem hpw) h2)
      | inr ho => exact ihl hnd.2.1 h ho hpw
  · intro nid nm ty ct fp ie ix _ h
    rw [hasFolderChildrenN] at h
    cases h
  · intro nid nm ty ct fp l2 ie ix ih hnd h ho hpw
    rw [nodeIds_mk_some, List.nodup_cons] at hnd
    rw [occursN.eq_def] at ho
    cases ho with
    | inl ho =>
      rw [ho]
      exact h
    | inr ho =>
      rw [hasFolderChildrenN] at h
      cases h with
      | inl h =>
        exfalso
        apply hnd.1
        rw [h.1]
        exact (occursL_nodeIds_sublist w l2 ho).mem hpw
      | inr h => exact ih hnd.2 h ho hpw

/-- Under the unique-id invariant, a childless occurrence of an id rules
out a folder occurrence of the same id with a children list. -/
theorem occurs_none_hFC_contra (pid : String) (cs : List FSNode)
    (nm2 : String) (ty2 : NodeType) (ct2 fp2 : Option String) (ie2 ix2 : Option Bool) :
    ∀ l : List FSNode, (allIdsL l).Nodup →
      occursL (FSNode.mk pid nm2 ty2 ct2 fp2 none ie2 ix2) l →
      hasFolderChildrenL pid cs l → False := by
  refine forestInd ?_ ?_ ?_ ?_
    (motive := fun n => (nodeIds n).Nodup →
      occursN (FSNode.mk pid nm2 ty2 ct2 fp2 none ie2 ix2) n →
      hasFolderChildrenN pid cs n → False)
  · intro _ _ h; cases h
  · intro n ns ihn ihl hnd ho h
    rw [allIdsL, List.nodup_append] at hnd
    cases ho with
    | inl ho =>
      cases h with
      | inl h => exact ihn hnd.1 ho h
      | inr h =>
        exact hnd.2.2 (occursN_id_mem _ n ho) (hFCL_pid_mem pid cs ns h)
    | inr ho =>
      cases h with
      | inl h => exact hnd.2.2 (hFCN_pid_mem pid cs n h) (occursL_id_mem _ ns ho)
      | inr h => exact ihl hnd.2.1 ho h
  · intro nid nm ty ct fp ie ix _ _ h
    rw [hasFolderChildrenN] at h
    cases h
  · intro nid nm ty ct fp l2 ie ix ih hnd ho h
    rw [nodeIds_mk_some, List.nodup_cons] at hnd
    rw [occursN.eq_def] at ho
    cases ho with
    | inl ho =>
      injection ho with h1 h2 h3 h4 h5 h6 h7 h8
      cases h6
    | inr ho =>
      rw [hasFolderChildrenN] at h
      cases h with
      | inl h =>
        apply hnd.1
        rw [h.1]
        exact occursL_id_mem _ l2 ho
      | inr h => exact ih hnd.2 ho h

theorem hFC_append_cases (pid : String) (cs : List FSNode) :
    ∀ a b : List FSNode, hasFolderChildrenL pid cs (a ++ b) →
      hasFolderChildrenL pid cs a ∨ hasFolderChildrenL pid cs b := by
  intro a
  induction a with
  | nil => intro b h; exact Or.inr h
  | cons n ns ih =>
    intro b h
    cases h with
    | inl h => exact Or.inl (Or.inl h)
    | inr h =>
      cases ih b h with
      | inl h2 => exact Or.inl (Or.inr h2)
      | inr h2 => exact Or.inr h2

/-! ### Forward and backward transport through `addNodeToFolder` -/

theorem hFC_addGo_forward (w : FSNode) (f pid : String) (cs : List FSNode) :
    ∀ l : List FSNode, hasFolderChildrenL pid cs l →
      ∃ cs2, hasFolderChildrenL pid cs2 (addNodeToFolderGo w f l)
        ∧ (rootIds cs2 = rootIds cs ∨ (pid = f ∧ cs2 = cs ++ [w])) := by
  refine forestInd ?_ ?_ ?_ ?_
    (motive := fun n => hasFolderChildrenN pid cs n →
      ∃ cs2, hasFolderChildrenN pid cs2 (addNodeToFolderN w f n)
        ∧ (rootIds cs2 = rootIds cs ∨ (pid = f ∧ cs2 = cs ++ [w])))
  · intro h; cases h
  · intro n ns ihn ihl h
    rw [addNodeToFolderGo]
    cases h with
    | inl h =>
      obtain ⟨cs2, h1, h2⟩ := ihn h
      exact ⟨cs2, Or.inl h1, h2⟩
    | inr h =>
      obtain ⟨cs2, h1, h2⟩ := ihl h
      exact ⟨cs2, Or.inr h1, h2⟩
  · intro nid nm ty ct fp ie ix h
    rw [hasFolderChildrenN] at h
    cases h
  · intro nid nm ty ct fp l2 ie ix ih h
    rw [hasFolderChildrenN] at h
    by_cases hcond : nid = f ∧ ty = NodeType.folder
    · have heq : addNodeToFolderN w f (.mk nid nm ty ct fp (some l2) ie ix)
          = .mk nid nm ty ct fp (some (l2 ++ [w])) ie ix := by
        rw [addNodeToFolderN.eq_def]
        simp [hcond]
      rw [heq]
      cases h with
      | inl h =>
        refine ⟨cs ++ [w], Or.inl ⟨h.1, h.2.1, ?_⟩, Or.inr ⟨?_, rfl⟩⟩
        · rw [h.2.2]
        · rw [← h.1, hcond.1]
      | inr h =>
        exact ⟨cs, Or.inr (hFC_append_left pid cs l2 [w] h), Or.inl rfl⟩
    · have heq : addNodeToFolderN w f (.mk nid nm ty ct fp (some l2) ie ix)
          = .mk nid nm ty ct fp (some (addNodeToFolderGo w f l2)) ie ix := by
        rw [addNodeToFolderN.eq_def]
        simp [hcond]
      rw [heq]
      cases h with
      | inl h =>
        refine ⟨addNodeToFolderGo w f cs, Or.inl ⟨h.1, h.2.1, ?_⟩,
          Or.inl (rootIds_addNodeToFolderGo w f cs)⟩
        rw [h.2.2]
      | inr h =>
        obtain ⟨cs2, h1, h2⟩ := ih h
        exact ⟨cs2, Or.inr h1, h2⟩

theorem hFC_addGo_backward (w : FSNode) (f pid : String) (cs' : List FSNode) :
    ∀ l : List FSNode, hasFolderChildrenL pid cs' (addNodeToFolderGo w f l) →
      (∃ cs0, hasFolderChildrenL pid cs0 l ∧
        (cs' = cs0 ∨ cs' = addNodeToFolderGo w f cs0 ∨ (pid = f ∧ cs' = cs0 ++ [w])))
      ∨ hasFolderChildrenN pid cs' w
      ∨ (∃ nm2 ty2 ct2 fp2 ie2 ix2,
          occursL (FSNode.mk pid nm2 ty2 ct2 fp2 none ie2 ix2) l) := by
  refine forestInd ?_ ?_ ?_ ?_
    (motive := fun n => hasFolderChildrenN pid cs' (addNodeToFolderN w f n) →
      (∃ cs0, hasFolderChildrenN pid cs0 n ∧
        (cs' = cs0 ∨ cs' = addNodeToFolderGo w f cs0 ∨ (pid = f ∧ cs' = cs0 ++ [w])))
      ∨ hasFolderChildrenN pid cs' w
      ∨ (∃ nm2 ty2 ct2 fp2 ie2 ix2,
          occursN (FSNode.mk pid nm2 ty2 ct2 fp2 none ie2 ix2) n))
  · intro h; cases h
  · intro n ns ihn ihl h
    rw [addNodeToFolderGo] at h
    cases h with
    | inl h =>
      rcases ihn h with ⟨cs0, h1, h2⟩ | h1 | ⟨nm2, ty2, ct2, fp2, ie2, ix2, h1⟩
      · exact Or.inl ⟨cs0, Or.inl h1, h2⟩
      · exact Or.inr (Or.inl h1)
      · exact Or.inr (Or.inr ⟨nm2, ty2, ct2, fp2, ie2, ix2, Or.inl h1⟩)
    | inr h =>
      rcases ihl h with ⟨cs0, h1, h2⟩ | h1 | ⟨nm2, ty2, ct2, fp2, ie2, ix2, h1⟩
      · exact Or.inl ⟨cs0, Or.inr h1, h2⟩
      · exact Or.inr (Or.inl h1)
      · exact Or.inr (Or.inr ⟨nm2, ty2, ct2, fp2, ie2, ix2, Or.inr h1⟩)
  · intro nid nm ty ct fp ie ix h
    by_cases hcond : nid = f ∧ ty = NodeType.folder
    · have heq : addNodeToFolderN w f (.mk nid nm ty ct fp none ie ix)
          = .mk nid nm ty ct fp (some [w]) ie ix := by
        rw [addNodeToFolderN.eq_def]
        simp [hcond]
      rw [heq] at h
      rw [hasFolderChildrenN] at h
      cases h with
      | inl h =>
        refine Or.inr (Or.inr ⟨nm, ty, ct, fp, ie, ix, ?_⟩)
        show FSNode.mk pid nm ty ct fp none ie ix = FSNode.mk nid nm ty ct fp none ie ix
        rw [h.1]
      | inr h =>
        rcases h with h | h
        · exact Or.inr (Or.inl h)
        · cases h
    · have heq : addNodeToFolderN w f (.mk nid nm ty ct fp none ie ix)
          = .mk nid nm ty ct fp none ie ix := by
        rw [addNodeToFolderN.eq_def]
        simp [hcond]
      rw [heq] at h
      rw [hasFolderChildrenN] at h
      cases h
  · intro nid nm ty ct fp l2 ie ix ih h
    by_cases hcond : nid = f ∧ ty = NodeType.folder
    · have heq : addNodeToFolderN w f (.mk nid nm ty ct fp (some l2) ie ix)
          = .mk nid nm ty ct fp (some (l2 ++ [w])) ie ix := by
        rw [addNodeToFolderN.eq_def]
        simp [hcond]
      rw [heq] at h
      rw [hasFolderChildrenN] at h
      cases h with
      | inl h =>
        refine Or.inl ⟨l2, Or.inl ⟨h.1, h.2.1, rfl⟩, Or.inr (Or.inr ⟨?_, h.2.2.symm⟩)⟩
        rw [← h.1]
        exact hcond.1
      | inr h =>
        rcases hFC_append_cases pid cs' l2 [w] h with h | h
        · exact Or.inl ⟨cs', Or.inr h, Or.inl rfl⟩
        · rcases h with h | h
          · exact Or.inr (Or.inl h)
          · cases h
    · have heq : addNodeToFolderN w f (.mk nid nm ty ct fp (some l2) ie ix)
          = .mk nid nm ty ct fp (some (addNodeToFolderGo w f l2)) ie ix := by
        rw [addNodeToFolderN.eq_def]
        simp [hcond]
      rw [heq] at h
      rw [hasFolderChildrenN] at h
      cases h with
      | inl h =>
        exact Or.inl ⟨l2, Or.inl ⟨h.1, h.2.1, rfl⟩, Or.inr (Or.inl h.2.2.symm)⟩
      | inr h =>
        rcases ih h with ⟨cs0, h1, h2⟩ | h1 | ⟨nm2, ty2, ct2, fp2, ie2, ix2, h1⟩
        · exact Or.inl ⟨cs0, Or.inr h1, h2⟩
        · exact Or.inr (Or.inl h1)
        · refine Or.inr (Or.inr ⟨nm2, ty2, ct2, fp2, ie2, ix2, ?_⟩)
          rw [occursN.eq_def]
          exact Or.inr h1

theorem rootIds_addNodesToFolder (newNodes : List FSNode) (folderId : Option String) :
    ∀ t : List FSNode,
      ∃ extra, rootIds (addNodesToFolder newNodes folderId t) = rootIds t ++ extra
        ∧ ∀ j ∈ extra, j ∈ rootIds newNodes := by
  induction newNodes with
  | nil =>
    intro t
    refine ⟨[], ?_, fun j hj => absurd hj (List.not_mem_nil j)⟩
    show rootIds t = rootIds t ++ []
    rw [List.append_nil]
  | cons n ns ih =>
    intro t
    obtain ⟨extra, h1, h2⟩ := ih (addNodeToFolder n folderId t)
    cases folderId with
    | none =>
      have haddeq : addNodeToFolder n none t = t ++ [n] := rfl
      rw [haddeq, rootIds_append] at h1
      refine ⟨FSNode.id n :: extra, ?_, ?_⟩
      · show rootIds (addNodesToFolder ns none (addNodeToFolder n none t))
          = rootIds t ++ FSNode.id n :: extra
        rw [haddeq, h1, List.append_assoc]
        rfl
      · intro j hj
        cases hj with
        | head => exact List.mem_cons_self _ _
        | tail _ hj => exact List.mem_cons_of_mem _ (h2 j hj)
    | some fid =>
      refine ⟨extra, ?_, fun j hj => List.mem_cons_of_mem _ (h2 j hj)⟩
      show rootIds (addNodesToFolder ns (some fid) (addNodeToFolder n (some fid) t))
        = rootIds t ++ extra
      rw [h1]
      have haddeq : addNodeToFolder n (some fid) t = addNodeToFolderGo n fid t := rfl
      rw [haddeq, rootIds_addNodeToFolderGo]

theorem hFC_addNodesToFolder_forward (pid : String) :
    ∀ (newNodes : List FSNode) (folderId : Option String) (t cs : List FSNode),
      hasFolderChildrenL pid cs t →
      ∃ cs2 extra, hasFolderChildrenL pid cs2 (addNodesToFolder newNodes folderId t)
        ∧ rootIds cs2 = rootIds cs ++ extra
        ∧ ∀ j ∈ extra, j ∈ rootIds newNodes := by
  intro newNodes
  induction newNodes with
  | nil =>
    intro folderId t cs h
    exact ⟨cs, [], h, by rw [List.append_nil], fun j hj => absurd hj (List.not_mem_nil j)⟩
  | cons n ns ih =>
    intro folderId t cs h
    cases folderId with
    | none =>
      have h1 : hasFolderChildrenL pid cs (addNodeToFolder n none t) :=
        hFC_append_left pid cs t [n] h
      obtain ⟨cs2, extra, h2, h3, h4⟩ := ih none (addNodeToFolder n none t) cs h1
      exact ⟨cs2, extra, h2, h3, fun j hj => List.mem_cons_of_mem _ (h4 j hj)⟩
    | some fid =>
      obtain ⟨cs1, hh1, hh2⟩ := hFC_addGo_forward n fid pid cs t h
      obtain ⟨cs2, extra, h2, h3, h4⟩ := ih (some fid) (addNodeToFolderGo n fid t) cs1 hh1
      cases hh2 with
      | inl hh2 =>
        refine ⟨cs2, extra, h2, ?_, fun j hj => List.mem_cons_of_mem _ (h4 j hj)⟩
        rw [h3, hh2]
      | inr hh2 =>
        refine ⟨cs2, FSNode.id n :: extra, h2, ?_, ?_⟩
        · rw [h3, hh2.2, rootIds_append, List.append_assoc]
          rfl
        · intro j hj
          cases hj with
          | head => exact List.mem_cons_self _ _
          | tail _ hj => exact List.mem_cons_of_mem _ (h4 j hj)

/-! ### Transport through `insertNodeAtPosition` and `updateParent` -/

theorem insertHere_cons (w : FSNode) (tid : String) (pos : Pos) (n : FSNode)
    (ns : List FSNode) :
    insertHere w tid pos (n :: ns)
      = if n.id = tid then
          (match pos with
            | Pos.before => w :: n :: ns
            | Pos.after => n :: w :: ns)
        else n :: insertHere w tid pos ns := by
  cases pos <;> rfl

theorem rootIds_insertHere_shape (w : FSNode) (tid : String) (pos : Pos) :
    ∀ l : List FSNode,
      rootIds (insertHere w tid pos l) = rootIds l
      ∨ ∃ x y, rootIds l = x ++ y
          ∧ rootIds (insertHere w tid pos l) = x ++ FSNode.id w :: y := by
  intro l
  induction l with
  | nil => exact Or.inl rfl
  | cons n ns ih =>
    rw [insertHere_cons]
    by_cases h : n.id = tid
    · rw [if_pos h]
      cases pos with
      | before =>
        exact Or.inr ⟨[], FSNode.id n :: rootIds ns, rfl, rfl⟩
      | after =>
        exact Or.inr ⟨[FSNode.id n], rootIds ns, rfl, rfl⟩
    · rw [if_neg h]
      cases ih with
      | inl ih =>
        refine Or.inl ?_
        show FSNode.id n :: rootIds (insertHere w tid pos ns) = FSNode.id n :: rootIds ns
        rw [ih]
      | inr ih =>
        obtain ⟨x, y, h1, h2⟩ := ih
        refine Or.inr ⟨FSNode.id n :: x, y, ?_, ?_⟩
        · show FSNode.id n :: rootIds ns = FSNode.id n :: (x ++ y)
          rw [h1]
        · show FSNode.id n :: rootIds (insertHere w tid pos ns)
            = FSNode.id n :: (x ++ FSNode.id w :: y)
          rw [h2]

theorem rootIds_insertNodeAtPosition_shape (w : FSNode) (tid : String) (pos : Pos)
    (l : List FSNode) :
    rootIds (insertNodeAtPosition w tid pos l) = rootIds l
    ∨ ∃ x y, rootIds l = x ++ y
        ∧ rootIds (insertNodeAtPosition w tid pos l) = x ++ FSNode.id w :: y := by
  cases hany : l.any (fun n => n.id == tid) with
  | true =>
    rw [insertNodeAtPosition, hany]
    simp only [if_true]
    exact rootIds_insertHere_shape w tid pos l
  | false =>
    rw [insertNodeAtPosition, hany]
    simp only [Bool.false_eq_true, if_false]
    exact Or.inl (rootIds_insertDeep w tid pos l)

theorem hFC_insertHere_backward (w : FSNode) (tid : String) (pos : Pos)
    (pid : String) (cs' : List FSNode) :
    ∀ l : List FSNode, hasFolderChildrenL pid cs' (insertHere w tid pos l) →
      hasFolderChildrenL pid cs' l ∨ hasFolderChildrenN pid cs' w := by
  intro l
  induction l with
  | nil => intro h; cases h
  | cons n ns ih =>
    intro h
    rw [insertHere_cons] at h
    by_cases hn : n.id = tid
    · rw [if_pos hn] at h
      cases pos with
      | before =>
        rcases h with h | h | h
        · exact Or.inr h
        · exact Or.inl (Or.inl h)
        · exact Or.inl (Or.inr h)
      | after =>
        rcases h with h | h | h
        · exact Or.inl (Or.inl h)
        · exact Or.inr h
        · exact Or.inl (Or.inr h)
    · rw [if_neg hn] at h
      cases h with
      | inl h => exact Or.inl (Or.inl h)
      | inr h =>
        cases ih h with
        | inl h2 => exact Or.inl (Or.inr h2)
        | inr h2 => exact Or.inr h2

theorem hFC_insertDeep_backward (w : FSNode) (tid : String) (pos : Pos)
    (pid : String) (cs' : List FSNode) :
    ∀ l : List FSNode, hasFolderChildrenL pid cs' (insertDeep w tid pos l) →
      (∃ cs0, hasFolderChildrenL pid cs0 l ∧
        (cs' = cs0 ∨ cs' = insertNodeAtPosition w tid pos cs0))
      ∨ hasFolderChildrenN pid cs' w := by
  refine forestInd ?_ ?_ ?_ ?_
    (motive := fun n => hasFolderChildrenN pid cs' (insertDeepN w tid pos n) →
      (∃ cs0, hasFolderChildrenN pid cs0 n ∧
        (cs' = cs0 ∨ cs' = insertNodeAtPosition w tid pos cs0))
      ∨ hasFolderChildrenN pid cs' w)
  · intro h; cases h
  · intro n ns ihn ihl h
    rw [insertDeep] at h
    cases h with
    | inl h =>
      rcases ihn h with ⟨cs0, h1, h2⟩ | h1
      · exact Or.inl ⟨cs0, Or.inl h1, h2⟩
      · exact Or.inr h1
    | inr h =>
      rcases ihl h with ⟨cs0, h1, h2⟩ | h1
      · exact Or.inl ⟨cs0, Or.inr h1, h2⟩
      · exact Or.inr h1
  · intro nid nm ty ct fp ie ix h
    rw [insertDeepN] at h
    rw [hasFolderChildrenN] at h
    cases h
  · intro nid nm ty ct fp l2 ie ix ih h
    rw [insertDeepN] at h
    rw [hasFolderChildrenN] at h
    have hiff : (if l2.any (fun n => n.id == tid) then insertHere w tid pos l2
        else insertDeep w tid pos l2) = insertNodeAtPosition w tid pos l2 := by
      rw [insertNodeAtPosition]
    rw [hiff] at h
    cases h with
    | inl h =>
      exact Or.inl ⟨l2, Or.inl ⟨h.1, h.2.1, rfl⟩, Or.inr h.2.2.symm⟩
    | inr h =>
      rw [insertNodeAtPosition] at h
      cases hany : l2.any (fun n => n.id == tid) with
      | true =>
        rw [hany] at h
        simp only [if_true] at h
        rcases hFC_insertHere_backward w tid pos pid cs' l2 h with h2 | h2
        · exact Or.inl ⟨cs', Or.inr h2, Or.inl rfl⟩
        · exact Or.inr h2
      | false =>
        rw [hany] at h
        simp only [Bool.false_eq_true, if_false] at h
        rcases ih h with ⟨cs0, h1, h2⟩ | h1
        · exact Or.inl ⟨cs0, Or.inr h1, h2⟩
        · exact Or.inr h1

theorem hFC_insertNodeAtPosition_backward (w : FSNode) (tid : String) (pos : Pos)
    (pid : String) (cs' : List FSNode) (l : List FSNode)
    (h : hasFolderChildrenL pid cs' (insertNodeAtPosition w tid pos l)) :
    (∃ cs0, hasFolderChildrenL pid cs0 l ∧
      (cs' = cs0 ∨ cs' = insertNodeAtPosition w tid pos cs0))
    ∨ hasFolderChildrenN pid cs' w := by
  rw [insertNodeAtPosition] at h
  cases hany : l.any (fun n => n.id == tid) with
  | true =>
    rw [hany] at h
    simp only [if_true] at h
    rcases hFC_insertHere_backward w tid pos pid cs' l h with h2 | h2
    · exact Or.inl ⟨cs', h2, Or.inl rfl⟩
    · exact Or.inr h2
  | false =>
    rw [hany] at h
    simp only [Bool.false_eq_true, if_false] at h
    exact hFC_insertDeep_backward w tid pos pid cs' l h

theorem hFC_updateParent_backward (qid : String) (w : FSNode) (tid : String) (pos : Pos)
    (pid : String) (cs' : List FSNode) :
    ∀ l : List FSNode, hasFolderChildrenL pid cs' (updateParent qid w tid pos l) →
      (∃ cs0, hasFolderChildrenL pid cs0 l ∧
        (cs' = cs0 ∨ cs' = updateParent qid w tid pos cs0
          ∨ cs' = insertNodeAtPosition w tid pos cs0))
      ∨ hasFolderChildrenN pid cs' w := by
  refine forestInd ?_ ?_ ?_ ?_
    (motive := fun n => hasFolderChildrenN pid cs' (updateParentN qid w tid pos n) →
      (∃ cs0, hasFolderChildrenN pid cs0 n ∧
        (cs' = cs0 ∨ cs' = updateParent qid w tid pos cs0
          ∨ cs' = insertNodeAtPosition w tid pos cs0))
      ∨ hasFolderChildrenN pid cs' w)
  · intro h; cases h
  · intro n ns ihn ihl h
    rw [updateParent] at h
    cases h with
    | inl h =>
      rcases ihn h with ⟨cs0, h1, h2⟩ | h1
      · exact Or.inl ⟨cs0, Or.inl h1, h2⟩
      · exact Or.inr h1
    | inr h =>
      rcases ihl h with ⟨cs0, h1, h2⟩ | h1
      · exact Or.inl ⟨cs0, Or.inr h1, h2⟩
      · exact Or.inr h1
  · intro nid nm ty ct fp ie ix h
    rw [updateParentN] at h
    rw [hasFolderChildrenN] at h
    cases h
  · intro nid nm ty ct fp l2 ie ix ih h
    by_cases hq : nid = qid
    · rw [updateParentN, if_pos hq, hasFolderChildrenN] at h
      cases h with
      | inl h =>
        exact Or.inl ⟨l2, Or.inl ⟨h.1, h.2.1, rfl⟩, Or.inr (Or.inr h.2.2.symm)⟩
      | inr h =>
        rcases hFC_insertNodeAtPosition_backward w tid pos pid cs' l2 h with ⟨cs0, h1, h2⟩ | h1
        · refine Or.inl ⟨cs0, Or.inr h1, ?_⟩
          rcases h2 with h2 | h2
          · exact Or.inl h2
          · exact Or.inr (Or.inr h2)
        · exact Or.inr h1
    · rw [updateParentN, if_neg hq, hasFolderChildrenN] at h
      cases h with
      | inl h =>
        exact Or.inl ⟨l2, Or.inl ⟨h.1, h.2.1, rfl⟩, Or.inr (Or.inl h.2.2.symm)⟩
      | inr h =>
        rcases ih h with ⟨cs0, h1, h2⟩ | h1
        · exact Or.inl ⟨cs0, Or.inr h1, h2⟩
        · exact Or.inr h1

/-! ### Gluing the transports into order-preservation statements -/

/-- Common pattern for mutations whose transported folder children keep
their root-level id sequence: the untouched sibling order is unchanged. -/
theorem OPE_subtree_generic (S : List String) (t res : List FSNode)
    (hnd : (allIdsL t).Nodup) (hnd2 : (allIdsL res).Nodup)
    (htrans : ∀ pid cs, hasFolderChildrenL pid cs t →
      ∃ cs2, hasFolderChildrenL pid cs2 res ∧ rootIds cs2 = rootIds cs) :
    ∀ pid cs cs', hasFolderChildrenL pid cs t →
      hasFolderChildrenL pid cs' res → OPE S (rootIds cs) (rootIds cs') := by
  intro pid cs cs' h h'
  obtain ⟨cs2, h1, h2⟩ := htrans pid cs h
  have hcseq : cs' = cs2 := hFC_unique pid res hnd2 cs' cs2 h' h1
  have hndcs : (rootIds cs).Nodup :=
    (rootIds_sublist_allIdsL cs).nodup
      (List.nodup_cons.mp (subtree_nodup_of_hFC pid cs t hnd h)).2
  exact OPE_step S (rootIds cs) hndcs (rootIds cs') (rootIds cs)
    (List.Sublist.refl _) (Or.inl (by rw [hcseq, h2]))

/-- Folder children surviving a move: comparing through the removal phase.
The occurrence in the post-insert tree that stems from the shrunken tree is
the removal image of the original children, reshaped at most by one
insertion of the moved id. -/
theorem OPE_move_left_helper (nid pid : String) (t cs cs0 cs' : List FSNode) (wid : String)
    (hnd : (allIdsL t).Nodup)
    (h : hasFolderChildrenL pid cs t)
    (h0 : hasFolderChildrenL pid cs0 (removeNodeFromTree nid t))
    (hndcs : (rootIds cs).Nodup)
    (hsh : rootIds cs' = rootIds cs0
      ∨ ∃ x y, rootIds cs0 = x ++ y ∧ rootIds cs' = x ++ wid :: y)
    (hwid : wid = nid) :
    OPE [nid] (rootIds cs) (rootIds cs') := by
  have hcont : containsIdL pid (removeNodeFromTree nid t) = true :=
    (mem_allIdsL_iff pid _).mp (hFCL_pid_mem pid cs0 _ h0)
  have hfwd := hFC_remove_forward nid pid cs t hnd h hcont
  have hndrem : (allIdsL (removeNodeFromTree nid t)).Nodup :=
    (allIdsL_removeNodeFromTree_sublist nid t).nodup hnd
  have hcs0 : cs0 = removeNodeFromTree nid cs :=
    hFC_unique pid _ hndrem cs0 _ h0 hfwd
  have hsub : (rootIds cs0).Sublist (rootIds cs) := by
    rw [hcs0]
    exact rootIds_filter_sublist nid cs
  cases hsh with
  | inl hsh =>
    exact OPE_step [nid] (rootIds cs) hndcs (rootIds cs') (rootIds cs0) hsub (Or.inl hsh)
  | inr hsh =>
    obtain ⟨x, y, h1, h2⟩ := hsh
    exact OPE_step [nid] (rootIds cs) hndcs (rootIds cs') (rootIds cs0) hsub
      (Or.inr (Or.inr ⟨x, y, wid, h1, h2, by rw [hwid]; exact List.mem_cons_self _ _⟩))

/-- Folder children surviving a move inside the moved subtree itself: the
subtree is reinserted verbatim, so the children list is unchanged. -/
theorem OPE_move_right_helper (pid : String) (t cs cs' : List FSNode) (w : FSNode)
    (S : List String)
    (hnd : (allIdsL t).Nodup)
    (h : hasFolderChildrenL pid cs t)
    (hndcs : (rootIds cs).Nodup)
    (hwocc : occursL w t)
    (hw2 : hasFolderChildrenN pid cs' w) :
    OPE S (rootIds cs) (rootIds cs') := by
  have hpw : pid ∈ nodeIds w := hFCN_pid_mem pid cs' w hw2
  have hcsw : hasFolderChildrenN pid cs w := hFC_localize pid cs w t hnd h hwocc hpw
  have hndw : (nodeIds w).Nodup := (occursL_nodeIds_sublist w t hwocc).nodup hnd
  have heq : cs = cs' := hFCN_unique pid w hndw cs cs' hcsw hw2
  exact OPE_step S (rootIds cs) hndcs (rootIds cs') (rootIds cs)
    (List.Sublist.refl _) (Or.inl (by rw [heq]))

/-! ### Per-operation sibling-order preservation -/

theorem mutation_case_updateNodeName (i nm : String) (t : List FSNode)
    (hnd : (allIdsL t).Nodup) (hnd2 : (allIdsL (updateNodeName i nm t)).Nodup) :
    OPE [] (rootIds t) (rootIds (updateNodeName i nm t))
    ∧ ∀ pid cs cs', hasFolderChildrenL pid cs t →
        hasFolderChildrenL pid cs' (updateNodeName i nm t) →
        OPE [] (rootIds cs) (rootIds cs') := by
  have hndroot : (rootIds t).Nodup := (rootIds_sublist_allIdsL t).nodup hnd
  refine ⟨OPE_step [] (rootIds t) hndroot _ (rootIds t) (List.Sublist.refl _)
      (Or.inl (rootIds_updateNodeName i nm t)), ?_⟩
  exact OPE_subtree_generic [] t _ hnd hnd2 (fun pid cs h => hFC_updateNodeName i nm pid cs t h)

theorem mutation_case_setNodeEditing (i : String) (b : Bool) (t : List FSNode)
    (hnd : (allIdsL t).Nodup) (hnd2 : (allIdsL (setNodeEditing i b t)).Nodup) :
    OPE [] (rootIds t) (rootIds (setNodeEditing i b t))
    ∧ ∀ pid cs cs', hasFolderChildrenL pid cs t →
        hasFolderChildrenL pid cs' (setNodeEditing i b t) →
        OPE [] (rootIds cs) (rootIds cs') := by
  have hndroot : (rootIds t).Nodup := (rootIds_sublist_allIdsL t).nodup hnd
  refine ⟨OPE_step [] (rootIds t) hndroot _ (rootIds t) (List.Sublist.refl _)
      (Or.inl (rootIds_setNodeEditing i b t)), ?_⟩
  exact OPE_subtree_generic [] t _ hnd hnd2 (fun pid cs h => hFC_setNodeEditing i b pid cs t h)

theorem mutation_case_setNodeExpanded (i : String) (b : Bool) (t : List FSNode)
    (hnd : (allIdsL t).Nodup) (hnd2 : (allIdsL (setNodeExpanded i b t)).Nodup) :
    OPE [] (rootIds t) (rootIds (setNodeExpanded i b t))
    ∧ ∀ pid cs cs', hasFolderChildrenL pid cs t →
        hasFolderChildrenL pid cs' (setNodeExpanded i b t) →
        OPE [] (rootIds cs) (rootIds cs') := by
  have hndroot : (rootIds t).Nodup := (rootIds_sublist_allIdsL t).nodup hnd
  refine ⟨OPE_step [] (rootIds t) hndroot _ (rootIds t) (List.Sublist.refl _)
      (Or.inl (rootIds_setNodeExpanded i b t)), ?_⟩
  exact OPE_subtree_generic [] t _ hnd hnd2 (fun pid cs h => hFC_setNodeExpanded i b pid cs t h)

theorem mutation_case_updateFileContent (p c : String) (t : List FSNode)
    (hnd : (allIdsL t).Nodup) (hnd2 : (allIdsL (updateFileContent p c t)).Nodup) :
    OPE [] (rootIds t) (rootIds (updateFileContent p c t))
    ∧ ∀ pid cs cs', hasFolderChildrenL pid cs t →
        hasFolderChildrenL pid cs' (updateFileContent p c t) →
        OPE [] (rootIds cs) (rootIds cs') := by
  have hndroot : (rootIds t).Nodup := (rootIds_sublist_allIdsL t).nodup hnd
  refine ⟨OPE_step [] (rootIds t) hndroot _ (rootIds t) (List.Sublist.refl _)
      (Or.inl (rootIds_updateFileContentGo (normalizeSlashes p) c t)), ?_⟩
  exact OPE_subtree_generic [] t _ hnd hnd2
    (fun pid cs h => hFC_updateFileContentGo (normalizeSlashes p) c pid cs t h)

theorem mutation_case_addNodes (newNodes t : List FSNode)
    (hnd : (allIdsL t).Nodup) (hnd2 : (allIdsL (addNodes t newNodes)).Nodup) :
    OPE (allIdsL newNodes) (rootIds t) (rootIds (addNodes t newNodes))
    ∧ ∀ pid cs cs', hasFolderChildrenL pid cs t →
        hasFolderChildrenL pid cs' (addNodes t newNodes) →
        OPE (allIdsL newNodes) (rootIds cs) (rootIds cs') := by
  have hndroot : (rootIds t).Nodup := (rootIds_sublist_allIdsL t).nodup hnd
  constructor
  · exact OPE_step _ (rootIds t) hndroot _ (rootIds t) (List.Sublist.refl _)
      (Or.inr (Or.inl ⟨rootIds newNodes, rootIds_append t newNodes,
        fun j hj => (rootIds_sublist_allIdsL newNodes).mem hj⟩))
  · exact OPE_subtree_generic _ t _ hnd hnd2
      (fun pid cs h => ⟨cs, hFC_append_left pid cs t newNodes h, rfl⟩)

theorem mutation_case_createFolder (newId nm : String) (t : List FSNode)
    (hnd : (allIdsL t).Nodup) (hnd2 : (allIdsL (createFolder newId nm t)).Nodup) :
    OPE [newId] (rootIds t) (rootIds (createFolder newId nm t))
    ∧ ∀ pid cs cs', hasFolderChildrenL pid cs t →
        hasFolderChildrenL pid cs' (createFolder newId nm t) →
        OPE [newId] (rootIds cs) (rootIds cs') := by
  have hndroot : (rootIds t).Nodup := (rootIds_sublist_allIdsL t).nodup hnd
  constructor
  · refine OPE_step _ (rootIds t) hndroot _ (rootIds t) (List.Sublist.refl _)
      (Or.inr (Or.inl ⟨[newId], ?_, fun j hj => hj⟩))
    exact rootIds_append t
      [FSNode.mk newId (if nm = "" then "New Folder" else nm) NodeType.folder
        none none (some []) none none]
  · exact OPE_subtree_generic _ t _ hnd hnd2
      (fun pid cs h => ⟨cs, hFC_append_left pid cs t _ h, rfl⟩)

theorem mutation_case_addNodesToFolder (newNodes : List FSNode) (folderId : Option String)
    (t : List FSNode)
    (hnd : (allIdsL t).Nodup) (hnd2 : (allIdsL (addNodesToFolder newNodes folderId t)).Nodup) :
    OPE (allIdsL newNodes) (rootIds t) (rootIds (addNodesToFolder newNodes folderId t))
    ∧ ∀ pid cs cs', hasFolderChildrenL pid cs t →
        hasFolderChildrenL pid cs' (addNodesToFolder newNodes folderId t) →
        OPE (allIdsL newNodes) (rootIds cs) (rootIds cs') := by
  have hndroot : (rootIds t).Nodup := (rootIds_sublist_allIdsL t).nodup hnd
  constructor
  · obtain ⟨extra, h1, h2⟩ := rootIds_addNodesToFolder newNodes folderId t
    exact OPE_step _ (rootIds t) hndroot _ (rootIds t) (List.Sublist.refl _)
      (Or.inr (Or.inl ⟨extra, h1,
        fun j hj => (rootIds_sublist_allIdsL newNodes).mem (h2 j hj)⟩))
  · intro pid cs cs' h h2
    obtain ⟨cs2, extra, hh1, hh2, hh3⟩ :=
      hFC_addNodesToFolder_forward pid newNodes folderId t cs h
    have hcseq : cs' = cs2 := hFC_unique pid _ hnd2 cs' cs2 h2 hh1
    have hndcs : (rootIds cs).Nodup :=
      (rootIds_sublist_allIdsL cs).nodup
        (List.nodup_cons.mp (subtree_nodup_of_hFC pid cs t hnd h)).2
    exact OPE_step _ (rootIds cs) hndcs _ (rootIds cs) (List.Sublist.refl _)
      (Or.inr (Or.inl ⟨extra, by rw [hcseq, hh2],
        fun j hj => (rootIds_sublist_allIdsL newNodes).mem (hh3 j hj)⟩))

theorem mutation_case_deleteNode (i : String) (t : List FSNode)
    (hnd : (allIdsL t).Nodup) :
    OPE [i] (rootIds t) (rootIds (deleteNode i t))
    ∧ ∀ pid cs cs', hasFolderChildrenL pid cs t →
        hasFolderChildrenL pid cs' (deleteNode i t) →
        OPE [i] (rootIds cs) (rootIds cs') := by
  have hndroot : (rootIds t).Nodup := (rootIds_sublist_allIdsL t).nodup hnd
  constructor
  · exact OPE_step [i] (rootIds t) hndroot _ (rootIds (deleteNode i t))
      (rootIds_filter_sublist i t) (Or.inl rfl)
  · intro pid cs cs' h h2
    have hcont : containsIdL pid (removeNodeFromTree i t) = true :=
      (mem_allIdsL_iff pid _).mp (hFCL_pid_mem pid cs' _ h2)
    have hfwd := hFC_remove_forward i pid cs t hnd h hcont
    have hndrem : (allIdsL (removeNodeFromTree i t)).Nodup :=
      (allIdsL_removeNodeFromTree_sublist i t).nodup hnd
    have hcseq : cs' = removeNodeFromTree i cs :=
      hFC_unique pid _ hndrem cs' _ h2 hfwd
    have hndcs : (rootIds cs).Nodup :=
      (rootIds_sublist_allIdsL cs).nodup
        (List.nodup_cons.mp (subtree_nodup_of_hFC pid cs t hnd h)).2
    exact OPE_step [i] (rootIds cs) hndcs _ (rootIds (removeNodeFromTree i cs))
      (rootIds_filter_sublist i cs) (Or.inl (by rw [hcseq]))

theorem allIdsL_deleteNodes_nodup (ids : List String) :
    ∀ t : List FSNode, (allIdsL t).Nodup → (allIdsL (deleteNodes ids t)).Nodup := by
  induction ids with
  | nil => intro t h; exact h
  | cons j js ih =>
    intro t h
    rw [deleteNodes_cons]
    exact ih _ ((allIdsL_removeNodeFromTree_sublist j t).nodup h)

theorem mutation_case_deleteNodes (ids : List String) (t : List FSNode)
    (hnd : (allIdsL t).Nodup) :
    OPE ids (rootIds t) (rootIds (deleteNodes ids t))
    ∧ ∀ pid cs cs', hasFolderChildrenL pid cs t →
        hasFolderChildrenL pid cs' (deleteNodes ids t) →
        OPE ids (rootIds cs) (rootIds cs') := by
  have hndroot : (rootIds t).Nodup := (rootIds_sublist_allIdsL t).nodup hnd
  constructor
  · exact OPE_step ids (rootIds t) hndroot _ (rootIds (deleteNodes ids t))
      (rootIds_deleteNodes_sublist ids t) (Or.inl rfl)
  · intro pid cs cs' h h2
    have hcont : containsIdL pid (deleteNodes ids t) = true :=
      (mem_allIdsL_iff pid _).mp (hFCL_pid_mem pid cs' _ h2)
    obtain ⟨cs2, hh1, hsub⟩ := hFC_deleteNodes_forward ids pid t cs hnd h hcont
    have hcseq : cs' = cs2 := hFC_unique pid _ (allIdsL_deleteNodes_nodup ids t hnd) cs' cs2 h2 hh1
    have hndcs : (rootIds cs).Nodup :=
      (rootIds_sublist_allIdsL cs).nodup
        (List.nodup_cons.mp (subtree_nodup_of_hFC pid cs t hnd h)).2
    exact OPE_step ids (rootIds cs) hndcs _ (rootIds cs2) hsub (Or.inl (by rw [hcseq]))

theorem mutation_case_moveNodeToFolder (nid : String) (tfid : Option String) (t : List FSNode)
    (hnd : (allIdsL t).Nodup) :
    OPE [nid] (rootIds t) (rootIds (moveNodeToFolder nid tfid t))
    ∧ ∀ pid cs cs', hasFolderChildrenL pid cs t →
        hasFolderChildrenL pid cs' (moveNodeToFolder nid tfid t) →
        OPE [nid] (rootIds cs) (rootIds cs') := by
  have hndroot : (rootIds t).Nodup := (rootIds_sublist_allIdsL t).nodup hnd
  cases hfind : findNodeById nid t with
  | none =>
    have hres : moveNodeToFolder nid tfid t = t := by
      rw [moveNodeToFolder, hfind]
    rw [hres]
    constructor
    · exact OPE_refl [nid] (rootIds t) hndroot
    · intro pid cs cs' h h2
      have hndcs : (rootIds cs).Nodup :=
        (rootIds_sublist_allIdsL cs).nodup
          (List.nodup_cons.mp (subtree_nodup_of_hFC pid cs t hnd h)).2
      have hcseq : cs' = cs := hFC_unique pid t hnd cs' cs h2 h
      exact OPE_step [nid] (rootIds cs) hndcs _ (rootIds cs) (List.Sublist.refl _)
        (Or.inl (by rw [hcseq]))
  | some w =>
    have hwid : FSNode.id w = nid := findNodeById_id nid t w hfind
    have hwocc : occursL w t := findNodeById_occurs nid t w hfind
    cases tfid with
    | none =>
      have hres : moveNodeToFolder nid none t = removeNodeFromTree nid t ++ [w] := by
        rw [moveNodeToFolder, hfind]
        rfl
      rw [hres]
      constructor
      · refine OPE_step [nid] (rootIds t) hndroot _ (rootIds (removeNodeFromTree nid t))
          (rootIds_filter_sublist nid t)
          (Or.inr (Or.inl ⟨[FSNode.id w], rootIds_append _ [w], ?_⟩))
        intro j hj
        rw [hwid] at hj
        exact hj
      · intro pid cs cs' h h2
        have hndcs : (rootIds cs).Nodup :=
          (rootIds_sublist_allIdsL cs).nodup
            (List.nodup_cons.mp (subtree_nodup_of_hFC pid cs t hnd h)).2
        rcases hFC_append_cases pid cs' _ [w] h2 with h0 | hw2
        · exact OPE_move_left_helper nid pid t cs cs' cs' (FSNode.id w) hnd h h0 hndcs
            (Or.inl rfl) hwid
        · rcases hw2 with hw2 | hw2
          · exact OPE_move_right_helper pid t cs cs' w [nid] hnd h hndcs hwocc hw2
          · cases hw2
    | some f =>
      have hres : moveNodeToFolder nid (some f) t
          = addNodeToFolderGo w f (removeNodeFromTree nid t) := by
        rw [moveNodeToFolder, hfind]
        rfl
      rw [hres]
      constructor
      · exact OPE_step [nid] (rootIds t) hndroot _ (rootIds (removeNodeFromTree nid t))
          (rootIds_filter_sublist nid t)
          (Or.inl (rootIds_addNodeToFolderGo w f (removeNodeFromTree nid t)))
      · intro pid cs cs' h h2
        have hndcs : (rootIds cs).Nodup :=
          (rootIds_sublist_allIdsL cs).nodup
            (List.nodup_cons.mp (subtree_nodup_of_hFC pid cs t hnd h)).2
        rcases hFC_addGo_backward w f pid cs' _ h2
          with ⟨cs0, h0, hsh⟩ | hw2 | ⟨nm2, ty2, ct2, fp2, ie2, ix2, hocc0⟩
        · refine OPE_move_left_helper nid pid t cs cs0 cs' (FSNode.id w) hnd h h0 hndcs ?_ hwid
          rcases hsh with hsh | hsh | hsh
          · exact Or.inl (by rw [hsh])
          · exact Or.inl (by rw [hsh, rootIds_addNodeToFolderGo])
          · refine Or.inr ⟨rootIds cs0, [], (List.append_nil (rootIds cs0)).symm, ?_⟩
            rw [hsh.2]
            exact rootIds_append cs0 [w]
        · exact OPE_move_right_helper pid t cs cs' w [nid] hnd h hndcs hwocc hw2
        · exfalso
          have hmem : pid ∈ allIdsL (removeNodeFromTree nid t) := occursL_id_mem _ _ hocc0
          have hcont : containsIdL pid (removeNodeFromTree nid t) = true :=
            (mem_allIdsL_iff pid _).mp hmem
          have hfwd := hFC_remove_forward nid pid cs t hnd h hcont
          have hndrem : (allIdsL (removeNodeFromTree nid t)).Nodup :=
            (allIdsL_removeNodeFromTree_sublist nid t).nodup hnd
          exact occurs_none_hFC_contra pid (removeNodeFromTree nid cs) nm2 ty2 ct2 fp2 ie2 ix2
            (removeNodeFromTree nid t) hndrem hocc0 hfwd

theorem mutation_case_moveNodeToPosition (nid tid : String) (pos : Pos) (t : List FSNode)
    (hnd : (allIdsL t).Nodup) :
    OPE [nid] (rootIds t) (rootIds (moveNodeToPosition nid tid pos t))
    ∧ ∀ pid cs cs', hasFolderChildrenL pid cs t →
        hasFolderChildrenL pid cs' (moveNodeToPosition nid tid pos t) →
        OPE [nid] (rootIds cs) (rootIds cs') := by
  have hndroot : (rootIds t).Nodup := (rootIds_sublist_allIdsL t).nodup hnd
  cases hfind : findNodeById nid t with
  | none =>
    have hres : moveNodeToPosition nid tid pos t = t := by
      rw [moveNodeToPosition, hfind]
    rw [hres]
    constructor
    · exact OPE_refl [nid] (rootIds t) hndroot
    · intro pid cs cs' h h2
      have hndcs : (rootIds cs).Nodup :=
        (rootIds_sublist_allIdsL cs).nodup
          (List.nodup_cons.mp (subtree_nodup_of_hFC pid cs t hnd h)).2
      have hcseq : cs' = cs := hFC_unique pid t hnd cs' cs h2 h
      exact OPE_step [nid] (rootIds cs) hndcs _ (rootIds cs) (List.Sublist.refl _)
        (Or.inl (by rw [hcseq]))
  | some w =>
    have hwid : FSNode.id w = nid := findNodeById_id nid t w hfind
    have hwocc : occursL w t := findNodeById_occurs nid t w hfind
    cases hpar : findParentNode tid (removeNodeFromTree nid t) none with
    | some p =>
      have hres : moveNodeToPosition nid tid pos t
          = updateParent (FSNode.id p) w tid pos (removeNodeFromTree nid t) := by
        rw [moveNodeToPosition, hfind]
        show (match findParentNode tid (removeNodeFromTree nid t) none with
              | some q => updateParent q.id w tid pos (removeNodeFromTree nid t)
              | none => insertNodeAtPosition w tid pos (removeNodeFromTree nid t))
            = updateParent (FSNode.id p) w tid pos (removeNodeFromTree nid t)
        rw [hpar]
      rw [hres]
      constructor
      · exact OPE_step [nid] (rootIds t) hndroot _ (rootIds (removeNodeFromTree nid t))
          (rootIds_filter_sublist nid t)
          (Or.inl (rootIds_updateParent (FSNode.id p) w tid pos (removeNodeFromTree nid t)))
      · intro pid cs cs' h h2
        have hndcs : (rootIds cs).Nodup :=
          (rootIds_sublist_allIdsL cs).nodup
            (List.nodup_cons.mp (subtree_nodup_of_hFC pid cs t hnd h)).2
        rcases hFC_updateParent_backward (FSNode.id p) w tid pos pid cs' _ h2
          with ⟨cs0, h0, hsh⟩ | hw2
        · refine OPE_move_left_helper nid pid t cs cs0 cs' (FSNode.id w) hnd h h0 hndcs ?_ hwid
          rcases hsh with hsh | hsh | hsh
          · exact Or.inl (by rw [hsh])
          · exact Or.inl (by rw [hsh, rootIds_updateParent])
          · rcases rootIds_insertNodeAtPosition_shape w tid pos cs0 with hsp | ⟨x, y, hx1, hx2⟩
            · exact Or.inl (by rw [hsh, hsp])
            · exact Or.inr ⟨x, y, hx1, by rw [hsh]; exact hx2⟩
        · exact OPE_move_right_helper pid t cs cs' w [nid] hnd h hndcs hwocc hw2
    | none =>
      have hres : moveNodeToPosition nid tid pos t
          = insertNodeAtPosition w tid pos (removeNodeFromTree nid t) := by
        rw [moveNodeToPosition, hfind]
        show (match findParentNode tid (removeNodeFromTree nid t) none with
              | some q => updateParent q.id w tid pos (removeNodeFromTree nid t)
              | none => insertNodeAtPosition w tid pos (removeNodeFromTree nid t))
            = insertNodeAtPosition w tid pos (removeNodeFromTree nid t)
        rw [hpar]
      rw [hres]
      constructor
      · rcases rootIds_insertNodeAtPosition_shape w tid pos (removeNodeFromTree nid t)
          with hsp | ⟨x, y, hx1, hx2⟩
        · exact OPE_step [nid] (rootIds t) hndroot _ (rootIds (removeNodeFromTree nid t))
            (rootIds_filter_sublist nid t) (Or.inl hsp)
        · exact OPE_step [nid] (rootIds t) hndroot _ (rootIds (removeNodeFromTree nid t))
            (rootIds_filter_sublist nid t)
            (Or.inr (Or.inr ⟨x, y, FSNode.id w, hx1, hx2,
              by rw [hwid]; exact List.mem_cons_self _ _⟩))
      · intro pid cs cs' h h2
        have hndcs : (rootIds cs).Nodup :=
          (rootIds_sublist_allIdsL cs).nodup
            (List.nodup_cons.mp (subtree_nodup_of_hFC pid cs t hnd h)).2
        rcases hFC_insertNodeAtPosition_backward w tid pos pid cs' _ h2
          with ⟨cs0, h0, hsh⟩ | hw2
        · refine OPE_move_left_helper nid pid t cs cs0 cs' (FSNode.id w) hnd h h0 hndcs ?_ hwid
          rcases hsh with hsh | hsh
          · exact Or.inl (by rw [hsh])
          · rcases rootIds_insertNodeAtPosition_shape w tid pos cs0 with hsp | ⟨x, y, hx1, hx2⟩
            · exact Or.inl (by rw [hsh, hsp])
            · exact Or.inr ⟨x, y, hx1, by rw [hsh]; exact hx2⟩
        · exact OPE_move_right_helper pid t cs cs' w [nid] hnd h hndcs hwocc hw2

/-! ### Claim C10: all Tree Store mutations preserve untouched sibling order -/

/-- One call to a Tree Store mutation, with its arguments. -/
inductive Mutation where
  | addNodes (newNodes : List FSNode)
  | addNodesToFolder (newNodes : List FSNode) (folderId : Option String)
  | createFolder (newId nm : String)
  | updateNodeName (i nm : String)
  | setNodeEditing (i : String) (b : Bool)
  | setNodeExpanded (i : String) (b : Bool)
  | deleteNode (i : String)
  | deleteNodes (ids : List String)
  | moveNodeToFolder (nid : String) (targetFolderId : Option String)
  | moveNodeToPosition (nid tid : String) (pos : Pos)
  | updateFileContent (p c : String)

/-- The state transformation a mutation performs on the store forest. -/
def Mutation.apply : Mutation → List FSNode → List FSNode
  | .addNodes newNodes, t => DevClipboard.addNodes t newNodes
  | .addNodesToFolder newNodes folderId, t => DevClipboard.addNodesToFolder newNodes folderId t
  | .createFolder newId nm, t => DevClipboard.createFolder newId nm t
  | .updateNodeName i nm, t => DevClipboard.updateNodeName i nm t
  | .setNodeEditing i b, t => DevClipboard.setNodeEditing i b t
  | .setNodeExpanded i b, t => DevClipboard.setNodeExpanded i b t
  | .deleteNode i, t => DevClipboard.deleteNode i t
  | .deleteNodes ids, t => DevClipboard.deleteNodes ids t
  | .moveNodeToFolder nid tfid, t => DevClipboard.moveNodeToFolder nid tfid t
  | .moveNodeToPosition nid tid pos, t => DevClipboard.moveNodeToPosition nid tid pos t
  | .updateFileContent p c, t => DevClipboard.updateFileContent p c t

/-- The ids a mutation explicitly inserts, moves or removes. -/
def Mutation.touched : Mutation → List String
  | .addNodes newNodes => allIdsL newNodes
  | .addNodesToFolder newNodes _ => allIdsL newNodes
  | .createFolder newId _ => [newId]
  | .updateNodeName _ _ => []
  | .setNodeEditing _ _ => []
  | .setNodeExpanded _ _ => []
  | .deleteNode i => [i]
  | .deleteNodes ids => ids
  | .moveNodeToFolder nid _ => [nid]
  | .moveNodeToPosition nid _ _ => [nid]
  | .updateFileContent _ _ => []

/-- Claim C10: every Tree Store mutation (addNodes, addNodesToFolder,
createFolder, updateNodeName, setNodeEditing, setNodeExpanded, deleteNode,
deleteNodes, moveNodeToFolder, moveNodeToPosition, updateFileContent)
preserves the relative sibling order of all nodes it does not explicitly
insert, move or remove. Under the unique-id invariant of spec section 3
(assumed for the state before and after the call), for the root sibling
list and for the children list of any folder present before and after, the
ids common to both sides and outside the mutation touched-id set appear in
the same relative order. -/
theorem mutation_preserves_sibling_order (m : Mutation) (t : List FSNode)
    (hnd : (allIdsL t).Nodup) (hnd2 : (allIdsL (m.apply t)).Nodup) :
    OPE m.touched (rootIds t) (rootIds (m.apply t))
    ∧ ∀ pid cs cs', hasFolderChildrenL pid cs t →
        hasFolderChildrenL pid cs' (m.apply t) →
        OPE m.touched (rootIds cs) (rootIds cs') := by
  cases m with
  | addNodes newNodes => exact mutation_case_addNodes newNodes t hnd hnd2
  | addNodesToFolder newNodes folderId =>
    exact mutation_case_addNodesToFolder newNodes folderId t hnd hnd2
  | createFolder newId nm => exact mutation_case_createFolder newId nm t hnd hnd2
  | updateNodeName i nm => exact mutation_case_updateNodeName i nm t hnd hnd2
  | setNodeEditing i b => exact mutation_case_setNodeEditing i b t hnd hnd2
  | setNodeExpanded i b => exact mutation_case_setNodeExpanded i b t hnd hnd2
  | deleteNode i => exact mutation_case_deleteNode i t hnd
  | deleteNodes ids => exact mutation_case_deleteNodes ids t hnd
  | moveNodeToFolder nid tfid => exact mutation_case_moveNodeToFolder nid tfid t hnd
  | moveNodeToPosition nid tid pos => exact mutation_case_moveNodeToPosition nid tid pos t hnd
  | updateFileContent p c => exact mutation_case_updateFileContent p c t hnd hnd2

/-- The concrete forest for the C10 witness: folder `p` with files `x`, `y`
and a root-level file `w`. -/
def c10Tree : List FSNode :=
  [FSNode.mk "p" "p" NodeType.folder none none
      (some [FSNode.mk "x" "x" NodeType.file (some "1") none none none none,
             FSNode.mk "y" "y" NodeType.file (some "2") none none none none]) none none,
   FSNode.mk "w" "w" NodeType.file (some "3") none none none none]

/-- The concrete mutation for the C10 witness: move `w` after `y`. -/
def c10Move : Mutation := Mutation.moveNodeToPosition "w" "y" Pos.after

/-- Witness for C10: both unique-id hypotheses hold on the concrete
scenario, and the theorem applies to it. -/
theorem mutation_preserves_sibling_order_witness :
    (allIdsL c10Tree).Nodup ∧ (allIdsL (c10Move.apply c10Tree)).Nodup
    ∧ (OPE c10Move.touched (rootIds c10Tree) (rootIds (c10Move.apply c10Tree))
      ∧ ∀ pid cs cs', hasFolderChildrenL pid cs c10Tree →
          hasFolderChildrenL pid cs' (c10Move.apply c10Tree) →
          OPE c10Move.touched (rootIds cs) (rootIds cs')) :=
  ⟨by decide, by decide,
    mutation_preserves_sibling_order c10Move c10Tree (by decide) (by decide)⟩

end DevClipboard
